import Mathlib

/-!
Verification of `src/cmd/compile/internal/gc/scc.go`: the bottom-up
strongly-connected-component visitor of the Go compiler.

The embedding abstracts the call-graph extractor (`ir.Visit` together with
the `ONAME`/`OMETHEXPR`/`ODOTMETH`/`OCALLPART`/`OCLOSURE` cases of the
callback, lines 81-120 of scc.go) into a function `succ : Nat → List Nat`
giving, for each function, the statically resolved call targets in body
traversal order, exactly as the sequence of `v.visit(...)` calls the Go
callback performs.  Function declarations (`*ir.Func`) are identified by
natural numbers `0 .. n-1`; `closure i` models `i.IsHiddenClosure()`.

The visitor state mirrors `bottomUpVisitor` (lines 34-39): the `uint32`
counter `visitgen` (tracked as a `Nat` reduced `% 2^32` at each increment),
the map `nodeID` (0 = absent, as for a Go map lookup miss), and the explicit
`stack`.  The stack is a Lean list whose HEAD is the TOP of the Go slice
stack (Go appends at the end; we cons at the front).  The `analyze` callback
has no observable effect other than being invoked, so the model records the
sequence of its invocations in an `out` list.

Go's recursion is modelled with explicit fuel; `none` means "out of fuel".
-/

namespace SCCgo

/-- `2^32`, the modulus of Go's `uint32`. -/
def W : Nat := 4294967296

/-- `^uint32(0)`, the value stored into `v.nodeID[x]` when a node is
finalized into an emitted component (lines 141 and 143). -/
def sentinel : Nat := W - 1

/-- The static call graph: `n` function declarations `0 .. n-1`;
`succ i` is the list of statically resolvable call targets of `i`'s body
in traversal order; `closure i` models `i.IsHiddenClosure()`. -/
structure Graph where
  n : Nat
  succ : Nat → List Nat
  closure : Nat → Bool

/-- `bottomUpVisitor` (lines 34-39), with `analyze` replaced by the `out`
log of its invocations. -/
structure Visitor where
  visitgen : Nat
  nodeID : Nat → Nat
  stack : List Nat
  out : List (List Nat × Bool)

/-- Point update of the `nodeID` map. -/
def setID (f : Nat → Nat) (x v : Nat) : Nat → Nat :=
  fun m => if m = x then v else f m

/-- Set `nodeID` to `val` on every member of `xs` (the marking performed by
the pop loop, lines 136-143). -/
def setMany (f : Nat → Nat) (xs : List Nat) (val : Nat) : Nat → Nat :=
  fun m => if m ∈ xs then val else f m

/-- The pop loop of lines 135-144: scan the stack from the top for `x`;
return (the popped segment including `x`, top first — i.e. Go's
`v.stack[i:]` reversed) and the remaining stack (Go's `v.stack[:i]`).
If `x` is not on the stack the Go code would panic on `v.stack[-1:]`;
that situation is unreachable (the node that tests the closing condition
is always on the stack), and here the whole stack is returned. -/
def popTo (x : Nat) : List Nat → List Nat × List Nat
  | [] => ([], [])
  | y :: ys =>
    if y = x then ([y], ys)
    else
      let p := popTo x ys
      (y :: p.1, p.2)

/-- The fold over the call targets of a function's body: each target is
visited and the running `min` is lowered when the returned value is
smaller (`if m := v.visit(...); m < min { min = m }`, lines 81-120). -/
def edgeFold (vf : Visitor → Nat → Option (Nat × Visitor)) :
    Visitor → List Nat → Nat → Option (Nat × Visitor)
  | v, [], mn => some (mn, v)
  | v, e :: es, mn =>
    match vf v e with
    | none => none
    | some (m, v') => edgeFold vf v' es (if m < mn then m else mn)

/-- `(*bottomUpVisitor).visit` (lines 68-151).  Fuel-indexed; `none` means
the fuel ran out (the Go code has no such case; sufficient fuel is proved
below). -/
def visit (g : Graph) : Nat → Visitor → Nat → Option (Nat × Visitor)
  | 0, _, _ => none
  | fuel + 1, v, n =>
    if 0 < v.nodeID n then
      -- lines 69-72: already visited
      some (v.nodeID n, v)
    else
      -- lines 74-79: assign id, seed min at the next ordinal, push
      let id := (v.visitgen + 1) % W
      let v1 : Visitor := { v with visitgen := (v.visitgen + 1) % W,
                                   nodeID := setID v.nodeID n id }
      let mn := (v1.visitgen + 1) % W
      let v2 : Visitor := { v1 with visitgen := (v1.visitgen + 1) % W,
                                    stack := n :: v1.stack }
      match edgeFold (visit g fuel) v2 (g.succ n) mn with
      | none => none
      | some (mn, v3) =>
        -- line 122: component-root test
        if (mn = id ∨ mn = (id + 1) % W) ∧ g.closure n = false then
          let p := popTo n v3.stack
          some (mn, { v3 with nodeID := setMany v3.nodeID p.1 sentinel,
                              stack := p.2,
                              out := v3.out ++ [(p.1.reverse, decide (mn = id))] })
        else
          some (mn, v3)

/-- Fresh state at the start of `visitBottomUp` (lines 55-57). -/
def initV : Visitor := ⟨0, fun _ => 0, [], []⟩

/-- The root loop of `visitBottomUp` (lines 58-65): visit each listed
declaration unless it is a hidden closure.  (The `n.Op() == ir.ODCLFUNC`
filter drops non-function entries of the heterogeneous `[]ir.Node` list;
the model's roots are function identities already.) -/
def runRoots (g : Graph) (fuel : Nat) : Visitor → List Nat → Option Visitor
  | v, [] => some v
  | v, r :: rs =>
    if g.closure r = false then
      match visit g fuel v r with
      | none => none
      | some (_, v') => runRoots g fuel v' rs
    else runRoots g fuel v rs

/-- `visitBottomUp` (lines 54-66). -/
def visitBottomUp (g : Graph) (fuel : Nat) (roots : List Nat) : Option Visitor :=
  runRoots g fuel initV roots

/-- The member lists of all emitted components, concatenated in emission
order. -/
def outFlat (out : List (List Nat × Bool)) : List Nat :=
  (out.map Prod.fst).flatten

/-- Projection used by concrete test runs: the sequence of
`analyze(members, recursive)` invocations of a run. -/
def runOut (g : Graph) (fuel : Nat) (roots : List Nat) :
    Option (List (List Nat × Bool)) :=
  (visitBottomUp g fuel roots).map Visitor.out

/-! ### Derived notions -/

def Visited (v : Visitor) (m : Nat) : Prop := v.nodeID m ≠ 0

def IsDone (v : Visitor) (m : Nat) : Prop := v.nodeID m = sentinel

/-- Visited but not yet finalized: the node is on the stack. -/
def Opn (v : Visitor) (m : Nat) : Prop := Visited v m ∧ ¬ IsDone v m

/-- "Complete" relative to an active-frame list `A`: visited and not a
frame whose edge exploration may still be in progress. -/
def Cmp (v : Visitor) (A : List Nat) (m : Nat) : Prop := Visited v m ∧ m ∉ A

/-- Plain reachability in the call graph (reflexive-transitive). -/
inductive Reach (g : Graph) : Nat → Nat → Prop
  | refl (x : Nat) : Reach g x x
  | tail {x y z : Nat} : Reach g x y → z ∈ g.succ y → Reach g x z

/-- A nonempty edge path whose intermediate nodes (all but the two
endpoints) satisfy `C`. -/
inductive CPath (g : Graph) (C : Nat → Prop) : Nat → Nat → Prop
  | single {x y : Nat} : y ∈ g.succ x → CPath g C x y
  | cons {x y z : Nat} : y ∈ g.succ x → C y → CPath g C y z → CPath g C x z

/-- Well-formed graph: edges stay inside `0 .. n-1`. -/
def WF (g : Graph) : Prop := ∀ i, i < g.n → ∀ j ∈ g.succ i, j < g.n

/-- No-overflow bound: the `uint32` counter, which takes two ticks per
visited function, stays strictly below the sentinel. -/
def NoOv (g : Graph) : Prop := 2 * g.n + 2 < W

/-- Number of visited nodes. -/
def cntV (g : Graph) (v : Visitor) : Nat :=
  ((Finset.range g.n).filter (fun i => v.nodeID i ≠ 0)).card

/-- The state after the id/min assignment and the push (lines 74-79): the
`v2` of `visit`'s fresh branch, written out. -/
def pushF (v : Visitor) (n : Nat) : Visitor :=
  ⟨((v.visitgen + 1) % W + 1) % W, setID v.nodeID n ((v.visitgen + 1) % W),
   n :: v.stack, v.out⟩

/-- The state after the closing block (lines 122-148), written out:
pop down to `n`, mark the popped segment with the sentinel, log the
`analyze` invocation. -/
def closeF (v3 : Visitor) (n id mn : Nat) : Visitor :=
  ⟨v3.visitgen, setMany v3.nodeID (popTo n v3.stack).1 sentinel,
   (popTo n v3.stack).2,
   v3.out ++ [((popTo n v3.stack).1.reverse, decide (mn = id))]⟩

/-! ### Concrete graphs used in test runs, witnesses and counterexamples -/

/-- Mutual recursion `A → B → A`. -/
def gMutual : Graph :=
  ⟨2, fun i => if i = 0 then [1] else if i = 1 then [0] else [], fun _ => false⟩

/-- Function 0 with hidden closure 1, no back edge. -/
def gClosNoBack : Graph :=
  ⟨2, fun i => if i = 0 then [1] else [], fun i => decide (i = 1)⟩

/-- Function 0 with hidden closure 1 calling back into 0. -/
def gClosBack : Graph :=
  ⟨2, fun i => if i = 0 then [1] else if i = 1 then [0] else [],
   fun i => decide (i = 1)⟩

/-- Direct self recursion. -/
def gSelf : Graph := ⟨1, fun _ => [0], fun _ => false⟩

/-- Three-cycle `0 → 1 → 2 → 0`. -/
def gTriangle : Graph :=
  ⟨3, fun i => if i = 0 then [1] else if i = 1 then [2] else if i = 2 then [0] else [],
   fun _ => false⟩

/-- Diamond: 0 calls 1 and 2, both call 3. -/
def gDiamond : Graph :=
  ⟨4, fun i => if i = 0 then [1, 2] else if i = 1 then [3] else if i = 2 then [3] else [],
   fun _ => false⟩

/-- Function 0 with hidden closure 1; closures 1 and 2 are mutually
recursive, but nothing calls back into 0. -/
def gClosCycle : Graph :=
  ⟨3, fun i => if i = 0 then [1] else if i = 1 then [2] else if i = 2 then [1] else [],
   fun i => decide (i = 1 ∨ i = 2)⟩

/-- Hidden closure 2 referenced by both functions 0 and 1. -/
def gShared : Graph :=
  ⟨3, fun i => if i = 0 then [2] else if i = 1 then [2] else [],
   fun i => decide (i = 2)⟩

/-! ### The `uint32` counter in isolation

Each first visit of a function performs `v.visitgen++` twice (lines 74-78),
assigning `id` at the first tick and seeding `min` at the second.
`visitgenAfter k` is the counter value after `k` functions have been
freshly visited; `idOfVisit k` and `minSeedOfVisit k` are the two ordinals
issued to the `(k+1)`-st freshly visited function. -/

def visitgenAfter : Nat → Nat
  | 0 => 0
  | k + 1 => ((visitgenAfter k + 1) % W + 1) % W

def idOfVisit (k : Nat) : Nat := (visitgenAfter k + 1) % W

def minSeedOfVisit (k : Nat) : Nat := ((visitgenAfter k + 1) % W + 1) % W

/-- Functions reachable from a usable (non-closure) entry of the root
list. -/
def RootReach (g : Graph) (roots : List Nat) (m : Nat) : Prop :=
  ∃ x ∈ roots, g.closure x = false ∧ Reach g x m

/-- A state in which every node carries ordinal 1: used to exercise the
memoized branch of `visit` on concrete inputs. -/
def vAll1 : Visitor := ⟨0, fun _ => 1, [], []⟩

/-- Single-parent discipline: a hidden closure is referenced by at most
one function.  This is the shape of the compiler's real call graphs: a
hidden closure's `OCLOSURE` literal occurs in exactly one enclosing
function body, so "the lexically enclosing function" is well defined. -/
def SP (g : Graph) : Prop :=
  ∀ c p q, g.closure c = true → c ∈ g.succ p → c ∈ g.succ q → p = q

/-- `Encl g c f`: walking up the parents from hidden closure `c`, the
first non-closure function reached is `f` — under `SP`, the nearest
lexically enclosing non-closure function of `c`. -/
inductive Encl (g : Graph) : Nat → Nat → Prop
  | direct {c f : Nat} : g.closure c = true → g.closure f = false →
      c ∈ g.succ f → Encl g c f
  | step {c p f : Nat} : g.closure c = true → g.closure p = true →
      c ∈ g.succ p → Encl g p f → Encl g c f

/-! ## Theorems -/

/-! ### Sanity runs: the behavioural test cases of spec §8 -/

example : runOut gMutual 3 [0, 1] = some [([0, 1], true)] := by decide
example : runOut gClosNoBack 3 [0] = some [([0, 1], false)] := by decide
example : runOut gClosBack 3 [0] = some [([0, 1], true)] := by decide
example : runOut gSelf 2 [0] = some [([0], true)] := by decide
example : runOut gTriangle 4 [0, 1, 2] = some [([0, 1, 2], true)] := by decide
example :
    runOut gDiamond 5 [0, 1, 2, 3] =
      some [([3], false), ([1], false), ([2], false), ([0], false)] := by decide
example : runOut gClosCycle 4 [0] = some [([0, 1, 2], false)] := by decide
example : runOut gShared 4 [0, 1] = some [([0, 2], false), ([1], false)] := by decide
example : runOut gShared 4 [1, 0] = some [([1, 2], false), ([0], false)] := by decide

/-! ### The counter in closed form -/

theorem visitgenAfter_closed (k : Nat) : visitgenAfter k = 2 * k % W := by
  induction k with
  | zero => simp [visitgenAfter]
  | succ k ih =>
      show ((visitgenAfter k + 1) % W + 1) % W = _
      rw [ih]
      unfold W
      omega

theorem idOfVisit_closed (k : Nat) : idOfVisit k = (2 * k + 1) % W := by
  unfold idOfVisit
  rw [visitgenAfter_closed]
  unfold W
  omega

theorem minSeedOfVisit_closed (k : Nat) : minSeedOfVisit k = (2 * k + 2) % W := by
  unfold minSeedOfVisit
  rw [visitgenAfter_closed]
  unfold W
  omega

/-! ### Unfolding lemmas for `visit` -/

theorem W_eq : W = 4294967296 := rfl

theorem sentinel_eq : sentinel = 4294967295 := rfl

theorem visit_zero (g : Graph) (v : Visitor) (n : Nat) : visit g 0 v n = none := rfl

theorem visit_visited {g : Graph} {fuel : Nat} {v : Visitor} {n : Nat}
    (h : 0 < v.nodeID n) : visit g (fuel + 1) v n = some (v.nodeID n, v) := by
  simp [visit, h]

theorem visit_fresh {g : Graph} {fuel : Nat} {v : Visitor} {n : Nat}
    (h : v.nodeID n = 0) :
    visit g (fuel + 1) v n =
      match edgeFold (visit g fuel) (pushF v n) (g.succ n)
          (((v.visitgen + 1) % W + 1) % W) with
      | none => none
      | some (mn, v3) =>
        if (mn = (v.visitgen + 1) % W ∨ mn = ((v.visitgen + 1) % W + 1) % W) ∧
            g.closure n = false
        then some (mn, closeF v3 n ((v.visitgen + 1) % W) mn)
        else some (mn, v3) := by
  have h' : ¬ 0 < v.nodeID n := by omega
  simp only [visit, h', if_false]
  rfl

theorem edgeFold_nil (vf : Visitor → Nat → Option (Nat × Visitor)) (v : Visitor)
    (mn : Nat) : edgeFold vf v [] mn = some (mn, v) := rfl

theorem edgeFold_cons (vf : Visitor → Nat → Option (Nat × Visitor)) (v : Visitor)
    (e : Nat) (es : List Nat) (mn : Nat) :
    edgeFold vf v (e :: es) mn =
      match vf v e with
      | none => none
      | some (m, v') => edgeFold vf v' es (if m < mn then m else mn) := rfl

theorem setID_self (f : Nat → Nat) (x v : Nat) : setID f x v x = v := by
  simp [setID]

theorem setID_other (f : Nat → Nat) {x m : Nat} (v : Nat) (h : m ≠ x) :
    setID f x v m = f m := by
  simp [setID, h]

theorem setMany_mem (f : Nat → Nat) {xs : List Nat} {m : Nat} (val : Nat)
    (h : m ∈ xs) : setMany f xs val m = val := by
  simp [setMany, h]

theorem setMany_not_mem (f : Nat → Nat) {xs : List Nat} {m : Nat} (val : Nat)
    (h : m ∉ xs) : setMany f xs val m = f m := by
  simp [setMany, h]

theorem popTo_append {x : Nat} {l rest : List Nat} (h : x ∉ l) :
    popTo x (l ++ x :: rest) = (l ++ [x], rest) := by
  induction l with
  | nil => simp [popTo]
  | cons y ys ih =>
      have hy : y ≠ x := fun e => h (e ▸ List.mem_cons_self y ys)
      have h2 : x ∉ ys := fun hm => h (List.mem_cons_of_mem _ hm)
      simp [popTo, hy, ih h2]

/-! ### Reachability helpers -/

theorem Reach.chain {g : Graph} {a b c : Nat} (h1 : Reach g a b)
    (h2 : Reach g b c) : Reach g a c := by
  induction h2 with
  | refl => exact h1
  | tail _ he ih => exact Reach.tail ih he

theorem Reach.single {g : Graph} {a b : Nat} (h : b ∈ g.succ a) : Reach g a b :=
  Reach.tail (Reach.refl a) h

theorem CPath.to_reach {g : Graph} {C : Nat → Prop} {a b : Nat}
    (h : CPath g C a b) : Reach g a b := by
  induction h with
  | single he => exact Reach.single he
  | cons he _ _ ih => exact Reach.chain (Reach.single he) ih

/-- Intermediate-condition monotonicity of `CPath`. -/
theorem CPath.mono {g : Graph} {C D : Nat → Prop} (hCD : ∀ m, C m → D m)
    {a b : Nat} (h : CPath g C a b) : CPath g D a b := by
  induction h with
  | single he => exact CPath.single he
  | cons he hc _ ih => exact CPath.cons he (hCD _ hc) ih

theorem CPath.append {g : Graph} {C : Nat → Prop} {a b c : Nat}
    (h1 : CPath g C a b) (hb : C b) (h2 : CPath g C b c) : CPath g C a c := by
  induction h1 with
  | single he => exact CPath.cons he hb h2
  | cons he hc _ ih => exact CPath.cons he hc (ih hb h2)

/-! ### Counting visited nodes -/

theorem cntV_le (g : Graph) (v : Visitor) : cntV g v ≤ g.n := by
  have := Finset.card_filter_le (Finset.range g.n) (fun i => v.nodeID i ≠ 0)
  simpa using this

theorem cntV_congr {g : Graph} {v v' : Visitor}
    (h : ∀ m, m < g.n → (v'.nodeID m ≠ 0 ↔ v.nodeID m ≠ 0)) :
    cntV g v' = cntV g v := by
  unfold cntV
  congr 1
  apply Finset.filter_congr
  intro m hm
  simpa using h m (Finset.mem_range.mp hm)

theorem cntV_mono {g : Graph} {v v' : Visitor}
    (h : ∀ m, v.nodeID m ≠ 0 → v'.nodeID m ≠ 0) : cntV g v ≤ cntV g v' := by
  apply Finset.card_le_card
  intro m hm
  rw [Finset.mem_filter] at hm ⊢
  exact ⟨hm.1, h m hm.2⟩

theorem cntV_pushF {g : Graph} {v : Visitor} {n : Nat} (hn : n < g.n)
    (h0 : v.nodeID n = 0) (hid : (v.visitgen + 1) % W ≠ 0) :
    cntV g (pushF v n) = cntV g v + 1 := by
  unfold cntV
  have hset : (Finset.range g.n).filter (fun i => (pushF v n).nodeID i ≠ 0) =
      insert n ((Finset.range g.n).filter (fun i => v.nodeID i ≠ 0)) := by
    ext m
    simp only [Finset.mem_filter, Finset.mem_insert, Finset.mem_range, pushF]
    by_cases hm : m = n
    · subst hm
      simp [setID_self, hn, hid]
    · simp [setID_other _ _ hm, hm]
  rw [hset, Finset.card_insert_of_not_mem]
  simp [h0]

/-! ### Tier 1: structural facts about `visit`

`InvT` is the part of the run invariant needed for fuel accounting and
basic framing; `AOut` relates a pre-state to a post-state of any
(sub-)traversal. -/

structure InvT (g : Graph) (v : Visitor) : Prop where
  vg_eq : v.visitgen = 2 * cntV g v
  lt_n : ∀ m, Visited v m → m < g.n
  stack_vis : ∀ m, m ∈ v.stack → Visited v m

structure AOut (v v' : Visitor) : Prop where
  untouched : ∀ m, Visited v m → v'.nodeID m = v.nodeID m
  stack_ext : ∃ nw, v'.stack = nw ++ v.stack ∧ ∀ m ∈ nw, ¬ Visited v m
  vg_le : v.visitgen ≤ v'.visitgen
  out_ext : ∃ d, v'.out = v.out ++ d

theorem AOut.vis_mono {v v' : Visitor} (h : AOut v v') {m : Nat}
    (hm : Visited v m) : Visited v' m := by
  have := h.untouched m hm
  unfold Visited at *
  omega

theorem AOut.refl (v : Visitor) : AOut v v :=
  ⟨fun _ _ => rfl, ⟨[], by simp⟩, le_refl _, ⟨[], by simp⟩⟩

theorem AOut.trans {v1 v2 v3 : Visitor} (h12 : AOut v1 v2) (h23 : AOut v2 v3) :
    AOut v1 v3 := by
  refine ⟨?_, ?_, le_trans h12.vg_le h23.vg_le, ?_⟩
  · intro m hm
    rw [h23.untouched m (h12.vis_mono hm), h12.untouched m hm]
  · obtain ⟨nw1, he1, hm1⟩ := h12.stack_ext
    obtain ⟨nw2, he2, hm2⟩ := h23.stack_ext
    refine ⟨nw2 ++ nw1, by rw [he2, he1, List.append_assoc], ?_⟩
    intro m hm
    rcases List.mem_append.mp hm with h | h
    · intro hv
      exact hm2 m h (h12.vis_mono hv)
    · exact hm1 m h
  · obtain ⟨d1, he1⟩ := h12.out_ext
    obtain ⟨d2, he2⟩ := h23.out_ext
    exact ⟨d1 ++ d2, by rw [he2, he1, List.append_assoc]⟩

/-- Tier-1 postcondition of a fold over edge targets. -/
theorem edgeFoldA {g : Graph} {fuel : Nat}
    (IH : ∀ v n r v', InvT g v → n < g.n → visit g fuel v n = some (r, v') →
      InvT g v' ∧ AOut v v' ∧ Visited v' n ∧
      (∀ m, ¬ Visited v m → Visited v' m → Reach g n m)) :
    ∀ es v mn r v', InvT g v → (∀ e ∈ es, e < g.n) →
      edgeFold (visit g fuel) v es mn = some (r, v') →
      InvT g v' ∧ AOut v v' ∧ (∀ e ∈ es, Visited v' e) ∧ r ≤ mn ∧
      (∀ m, ¬ Visited v m → Visited v' m → ∃ e ∈ es, Reach g e m) := by
  intro es
  induction es with
  | nil =>
      intro v mn r v' hI _ hEq
      rw [edgeFold_nil] at hEq
      obtain ⟨rfl, rfl⟩ : mn = r ∧ v = v' := by
        constructor <;> [skip; skip] <;> injection hEq with h1 <;>
          first
          | exact congrArg Prod.fst h1
          | exact congrArg Prod.snd h1
      exact ⟨hI, AOut.refl v, by simp, le_refl _, by simp⟩
  | cons e es ih =>
      intro v mn r v' hI hlt hEq
      rw [edgeFold_cons] at hEq
      cases hve : visit g fuel v e with
      | none => rw [hve] at hEq; exact absurd hEq (by simp)
      | some p =>
          obtain ⟨m1, v1⟩ := p
          rw [hve] at hEq
          simp only at hEq
          obtain ⟨hI1, hA1, hVn1, hR1⟩ :=
            IH v e m1 v1 hI (hlt e (by simp)) hve
          obtain ⟨hI', hA', hVis', hr', hR'⟩ :=
            ih v1 (if m1 < mn then m1 else mn) r v' hI1
              (fun x hx => hlt x (List.mem_cons_of_mem _ hx)) hEq
          refine ⟨hI', AOut.trans hA1 hA', ?_, ?_, ?_⟩
          · intro x hx
            rcases List.mem_cons.mp hx with rfl | hx'
            · exact hA'.vis_mono hVn1
            · exact hVis' x hx'
          · have : (if m1 < mn then m1 else mn) ≤ mn := by
              split <;> omega
            omega
          · intro m hmv hmv'
            by_cases hm1 : Visited v1 m
            · exact ⟨e, by simp, hR1 m hmv hm1⟩
            · obtain ⟨x, hx, hr⟩ := hR' m hm1 hmv'
              exact ⟨x, List.mem_cons_of_mem _ hx, hr⟩

theorem sentinel_ne_zero : sentinel ≠ 0 := by
  rw [sentinel_eq]; omega

/-- Tier-1 postcondition of `visit`. -/
theorem visitA {g : Graph} (hNo : NoOv g) (hWF : WF g) :
    ∀ fuel v n r v', InvT g v → n < g.n → visit g fuel v n = some (r, v') →
      InvT g v' ∧ AOut v v' ∧ Visited v' n ∧
      (∀ m, ¬ Visited v m → Visited v' m → Reach g n m) := by
  intro fuel
  induction fuel with
  | zero =>
      intro v n r v' _ _ h
      exact absurd h (by simp [visit_zero])
  | succ fuel ih =>
      intro v n r v' hI hn hEq
      by_cases h0 : 0 < v.nodeID n
      · rw [visit_visited h0] at hEq
        obtain ⟨h1, h2⟩ := Prod.mk.injEq .. ▸ Option.some.inj hEq
        subst h2
        exact ⟨hI, AOut.refl v, by unfold Visited; omega,
          fun m hm1 hm2 => absurd hm2 hm1⟩
      · have h0' : v.nodeID n = 0 := by omega
        rw [visit_fresh h0'] at hEq
        have hW : W = 4294967296 := rfl
        have hcnt : cntV g v ≤ g.n := cntV_le g v
        have hvg : v.visitgen = 2 * cntV g v := hI.vg_eq
        have hNo' : 2 * g.n + 2 < W := hNo
        have hm1 : (v.visitgen + 1) % W = v.visitgen + 1 :=
          Nat.mod_eq_of_lt (by omega)
        have hm2 : ((v.visitgen + 1) % W + 1) % W = v.visitgen + 2 := by
          rw [hm1]; exact Nat.mod_eq_of_lt (by omega)
        have hm2' : (v.visitgen + 1 + 1) % W = v.visitgen + 2 :=
          Nat.mod_eq_of_lt (by omega)
        rw [hm1, hm2'] at hEq
        -- facts about the pushed state
        have hpvg : (pushF v n).visitgen = v.visitgen + 2 := by
          show ((v.visitgen + 1) % W + 1) % W = _
          rw [hm2]
        have hpid : (pushF v n).nodeID n = v.visitgen + 1 := by
          show setID v.nodeID n ((v.visitgen + 1) % W) n = _
          rw [setID_self, hm1]
        have hpoth : ∀ m, m ≠ n → (pushF v n).nodeID m = v.nodeID m := by
          intro m hm
          exact setID_other _ _ hm
        have hpstack : (pushF v n).stack = n :: v.stack := rfl
        have hpout : (pushF v n).out = v.out := rfl
        have hpvisn : Visited (pushF v n) n := by
          unfold Visited; rw [hpid]; omega
        have hvisP : ∀ m, Visited v m → Visited (pushF v n) m := by
          intro m hm
          have hmn : m ≠ n := by
            intro h; rw [h] at hm; exact hm h0'
          unfold Visited at *
          rw [hpoth m hmn]; exact hm
        have hIp : InvT g (pushF v n) := by
          refine ⟨?_, ?_, ?_⟩
          · rw [hpvg, cntV_pushF hn h0' (by rw [hm1]; omega), hvg]
            ring
          · intro m hm
            by_cases hmn : m = n
            · exact hmn ▸ hn
            · exact hI.lt_n m (by unfold Visited at *; rw [hpoth m hmn] at hm; exact hm)
          · intro m hm
            rw [hpstack] at hm
            rcases List.mem_cons.mp hm with rfl | hm'
            · exact hpvisn
            · exact hvisP m (hI.stack_vis m hm')
        have hApush : AOut v (pushF v n) := by
          refine ⟨fun m hm => hpoth m ?_, ⟨[n], by simp [hpstack], ?_⟩,
            by rw [hpvg]; omega, ⟨[], by simp [hpout]⟩⟩
          · intro h; rw [h] at hm; exact hm h0'
          · intro m hm
            rcases List.mem_singleton.mp hm with rfl
            unfold Visited; omega
        cases hfold : edgeFold (visit g fuel) (pushF v n) (g.succ n) (v.visitgen + 2) with
        | none => rw [hfold] at hEq; exact absurd hEq (by simp)
        | some p =>
            obtain ⟨mn, v3⟩ := p
            rw [hfold] at hEq
            simp only at hEq
            obtain ⟨hI3, hA3, hVis3, hmn3, hR3⟩ :=
              edgeFoldA ih (g.succ n) (pushF v n) (v.visitgen + 2) mn v3 hIp
                (fun e he => hWF n hn e he) hfold
            obtain ⟨nw, hst3, hnw⟩ := hA3.stack_ext
            rw [hpstack] at hst3
            have hnnw : n ∉ nw := fun h => hnw n h hpvisn
            have hvisn3 : Visited v3 n := hA3.vis_mono hpvisn
            have hA03 : AOut v v3 := AOut.trans hApush hA3
            have hreach3 : ∀ m, ¬ Visited v m → Visited v3 m → Reach g n m := by
              intro m hm hm3
              by_cases hmn : m = n
              · subst hmn; exact Reach.refl m
              · have hmp : ¬ Visited (pushF v n) m := by
                  unfold Visited at *
                  rw [hpoth m hmn]; exact hm
                obtain ⟨e, he, hre⟩ := hR3 m hmp hm3
                exact Reach.chain (Reach.single he) hre
            by_cases hcond :
                (mn = v.visitgen + 1 ∨ mn = v.visitgen + 2) ∧ g.closure n = false
            · rw [if_pos hcond] at hEq
              obtain ⟨h1, h2⟩ := Prod.mk.injEq .. ▸ Option.some.inj hEq
              subst h1 h2
              have hpop : popTo n v3.stack = (nw ++ [n], v.stack) := by
                rw [hst3]; exact popTo_append hnnw
              have hCnode : ∀ m,
                  (closeF v3 n (v.visitgen + 1) mn).nodeID m =
                    if m ∈ nw ++ [n] then sentinel else v3.nodeID m := by
                intro m
                show setMany v3.nodeID (popTo n v3.stack).1 sentinel m = _
                rw [hpop]
                by_cases hm : m ∈ nw ++ [n]
                · rw [setMany_mem _ _ hm, if_pos hm]
                · rw [setMany_not_mem _ _ hm, if_neg hm]
              have hCstack : (closeF v3 n (v.visitgen + 1) mn).stack = v.stack := by
                show (popTo n v3.stack).2 = _
                rw [hpop]
              have hCout : (closeF v3 n (v.visitgen + 1) mn).out =
                  v3.out ++ [((nw ++ [n]).reverse, decide (mn = v.visitgen + 1))] := by
                show v3.out ++ [((popTo n v3.stack).1.reverse, _)] = _
                rw [hpop]
              have hCvg : (closeF v3 n (v.visitgen + 1) mn).visitgen = v3.visitgen := rfl
              have hpopvis : ∀ m, m ∈ nw ++ [n] → Visited v3 m := by
                intro m hm
                apply hI3.stack_vis
                rw [hst3]
                rcases List.mem_append.mp hm with h | h
                · exact List.mem_append.mpr (Or.inl h)
                · rcases List.mem_singleton.mp h with rfl
                  exact List.mem_append.mpr (Or.inr (List.mem_cons_self _ _))
              have hpre_not_pop : ∀ m, Visited v m → m ∉ nw ++ [n] := by
                intro m hm hmem
                rcases List.mem_append.mp hmem with h | h
                · exact hnw m h (hvisP m hm)
                · rcases List.mem_singleton.mp h with rfl
                  exact hm h0'
              have hCvis : ∀ m, Visited v3 m →
                  Visited (closeF v3 n (v.visitgen + 1) mn) m := by
                intro m hm
                unfold Visited
                rw [hCnode]
                split
                · exact sentinel_ne_zero
                · exact hm
              have hCvis' : ∀ m, Visited (closeF v3 n (v.visitgen + 1) mn) m →
                  Visited v3 m := by
                intro m hm
                unfold Visited at hm
                rw [hCnode] at hm
                by_cases hmem : m ∈ nw ++ [n]
                · exact hpopvis m hmem
                · rw [if_neg hmem] at hm; exact hm
              refine ⟨⟨?_, ?_, ?_⟩, ?_, ?_, ?_⟩
              · rw [hCvg, hI3.vg_eq]
                congr 1
                apply cntV_congr
                intro m _
                constructor
                · exact fun h => hCvis m h
                · exact fun h => hCvis' m h
              · intro m hm
                exact hI3.lt_n m (hCvis' m hm)
              · intro m hm
                rw [hCstack] at hm
                have hv : Visited v m := hI.stack_vis m hm
                have := hpre_not_pop m hv
                unfold Visited
                rw [hCnode, if_neg this]
                exact hA03.vis_mono hv
              · refine ⟨?_, ⟨[], by simp [hCstack]⟩, ?_, ?_⟩
                · intro m hm
                  rw [hCnode, if_neg (hpre_not_pop m hm)]
                  exact hA03.untouched m hm
                · rw [hCvg]; exact hA03.vg_le
                · obtain ⟨d, hd⟩ := hA03.out_ext
                  exact ⟨d ++ [((nw ++ [n]).reverse, decide (mn = v.visitgen + 1))],
                    by rw [hCout, hd, List.append_assoc]⟩
              · unfold Visited
                rw [hCnode, if_pos (List.mem_append.mpr (Or.inr (List.mem_singleton.mpr rfl)))]
                exact sentinel_ne_zero
              · intro m hm hm'
                exact hreach3 m hm (hCvis' m hm')
            · rw [if_neg hcond] at hEq
              obtain ⟨h1, h2⟩ := Prod.mk.injEq .. ▸ Option.some.inj hEq
              subst h1 h2
              exact ⟨hI3, hA03, hvisn3, hreach3⟩

/-! ### Fuel sufficiency: the traversal always terminates -/

theorem InvT_init (g : Graph) : InvT g initV := by
  refine ⟨?_, ?_, ?_⟩
  · show 0 = 2 * cntV g initV
    unfold cntV initV
    simp
  · intro m hm
    exact absurd rfl hm
  · intro m hm
    exact absurd hm (List.not_mem_nil m)

theorem InvT_pushF {g : Graph} {v : Visitor} {n : Nat} (hNo : NoOv g)
    (hI : InvT g v) (hn : n < g.n) (h0 : v.nodeID n = 0) :
    InvT g (pushF v n) ∧ cntV g (pushF v n) = cntV g v + 1 := by
  have hW : W = 4294967296 := rfl
  have hcnt : cntV g v ≤ g.n := cntV_le g v
  have hvg : v.visitgen = 2 * cntV g v := hI.vg_eq
  have hNo' : 2 * g.n + 2 < W := hNo
  have hm1 : (v.visitgen + 1) % W = v.visitgen + 1 := Nat.mod_eq_of_lt (by omega)
  have hm2 : ((v.visitgen + 1) % W + 1) % W = v.visitgen + 2 := by
    rw [hm1]; exact Nat.mod_eq_of_lt (by omega)
  have hc : cntV g (pushF v n) = cntV g v + 1 :=
    cntV_pushF hn h0 (by rw [hm1]; omega)
  refine ⟨⟨?_, ?_, ?_⟩, hc⟩
  · show ((v.visitgen + 1) % W + 1) % W = _
    rw [hm2, hc, hvg]
    ring
  · intro m hm
    by_cases hmn : m = n
    · exact hmn ▸ hn
    · refine hI.lt_n m ?_
      have hm' : setID v.nodeID n ((v.visitgen + 1) % W) m ≠ 0 := hm
      rw [setID_other _ _ hmn] at hm'
      exact hm'
  · intro m hm
    rcases List.mem_cons.mp hm with rfl | hm'
    · unfold Visited
      show setID v.nodeID m ((v.visitgen + 1) % W) m ≠ 0
      rw [setID_self, hm1]
      omega
    · have hv : Visited v m := hI.stack_vis m hm'
      have hmn : m ≠ n := fun h => hv (h ▸ h0)
      unfold Visited at *
      show setID v.nodeID n ((v.visitgen + 1) % W) m ≠ 0
      rw [setID_other _ _ hmn]
      exact hv

theorem cntV_lt_of_unvisited {g : Graph} {v : Visitor} {n : Nat} (hn : n < g.n)
    (h0 : v.nodeID n = 0) : cntV g v < g.n := by
  have hsub : (Finset.range g.n).filter (fun i => v.nodeID i ≠ 0) ⊆
      (Finset.range g.n).erase n := by
    intro x hx
    rw [Finset.mem_filter] at hx
    rw [Finset.mem_erase]
    refine ⟨?_, hx.1⟩
    intro h
    exact hx.2 (h ▸ h0)
  have := Finset.card_le_card hsub
  rw [Finset.card_erase_of_mem (Finset.mem_range.mpr hn), Finset.card_range] at this
  unfold cntV
  omega

theorem edgeFold_fuel {g : Graph} (hNo : NoOv g) (hWF : WF g) {fuel : Nat}
    (IH : ∀ v n, InvT g v → n < g.n → g.n - cntV g v < fuel →
      (visit g fuel v n).isSome) :
    ∀ es v mn, InvT g v → (∀ e ∈ es, e < g.n) → g.n - cntV g v < fuel →
      (edgeFold (visit g fuel) v es mn).isSome := by
  intro es
  induction es with
  | nil =>
      intro v mn _ _ _
      rw [edgeFold_nil]
      rfl
  | cons e es ih =>
      intro v mn hI hlt hf
      rw [edgeFold_cons]
      have h1 := IH v e hI (hlt e (by simp)) hf
      obtain ⟨p, hp⟩ := Option.isSome_iff_exists.mp h1
      obtain ⟨m1, v1⟩ := p
      rw [hp]
      obtain ⟨hI1, hA1, -, -⟩ := visitA hNo hWF fuel v e m1 v1 hI (hlt e (by simp)) hp
      have hc : cntV g v ≤ cntV g v1 :=
        cntV_mono (fun m hm => hA1.vis_mono hm)
      exact ih v1 (if m1 < mn then m1 else mn) hI1
        (fun x hx => hlt x (List.mem_cons_of_mem _ hx)) (by omega)

theorem visit_fuel {g : Graph} (hNo : NoOv g) (hWF : WF g) :
    ∀ fuel v n, InvT g v → n < g.n → g.n - cntV g v < fuel →
      (visit g fuel v n).isSome := by
  intro fuel
  induction fuel with
  | zero =>
      intro v n _ _ hf
      exact absurd hf (by omega)
  | succ fuel ih =>
      intro v n hI hn hf
      by_cases h0 : 0 < v.nodeID n
      · rw [visit_visited h0]
        rfl
      · have h0' : v.nodeID n = 0 := by omega
        rw [visit_fresh h0']
        obtain ⟨hIp, hcp⟩ := InvT_pushF hNo hI hn h0'
        have hlt := cntV_lt_of_unvisited hn h0'
        have hfold := edgeFold_fuel hNo hWF ih (g.succ n) (pushF v n)
          (((v.visitgen + 1) % W + 1) % W) hIp (fun e he => hWF n hn e he)
          (by omega)
        obtain ⟨p, hp⟩ := Option.isSome_iff_exists.mp hfold
        obtain ⟨mn, v3⟩ := p
        simp only [hp]
        split <;> rfl

/-! ### Tier-1 facts about the root loop -/

theorem runRootsA {g : Graph} (hNo : NoOv g) (hWF : WF g) :
    ∀ rs fuel v v', InvT g v → (∀ x ∈ rs, x < g.n) →
      runRoots g fuel v rs = some v' →
      InvT g v' ∧ AOut v v' ∧
      (∀ x ∈ rs, g.closure x = false → Visited v' x) ∧
      (∀ m, ¬ Visited v m → Visited v' m →
        ∃ x ∈ rs, g.closure x = false ∧ Reach g x m) := by
  intro rs
  induction rs with
  | nil =>
      intro fuel v v' hI _ hEq
      obtain rfl : v = v' := Option.some.inj hEq
      exact ⟨hI, AOut.refl v, by simp, fun m h1 h2 => absurd h2 h1⟩
  | cons x rs ih =>
      intro fuel v v' hI hlt hEq
      unfold runRoots at hEq
      by_cases hx : g.closure x = false
      · rw [if_pos hx] at hEq
        cases hv : visit g fuel v x with
        | none => rw [hv] at hEq; exact absurd hEq (by simp)
        | some p =>
            obtain ⟨r1, v1⟩ := p
            rw [hv] at hEq
            simp only at hEq
            obtain ⟨hI1, hA1, hVx, hR1⟩ :=
              visitA hNo hWF fuel v x r1 v1 hI (hlt x (by simp)) hv
            obtain ⟨hI', hA', hV', hR'⟩ := ih fuel v1 v' hI1
              (fun y hy => hlt y (List.mem_cons_of_mem _ hy)) hEq
            refine ⟨hI', AOut.trans hA1 hA', ?_, ?_⟩
            · intro y hy hyc
              rcases List.mem_cons.mp hy with rfl | hy'
              · exact hA'.vis_mono hVx
              · exact hV' y hy' hyc
            · intro m hm hm'
              by_cases hm1 : Visited v1 m
              · exact ⟨x, by simp, hx, hR1 m hm hm1⟩
              · obtain ⟨y, hy, hyc, hr⟩ := hR' m hm1 hm'
                exact ⟨y, List.mem_cons_of_mem _ hy, hyc, hr⟩
      · rw [if_neg hx] at hEq
        obtain ⟨hI', hA', hV', hR'⟩ := ih fuel v v' hI
          (fun y hy => hlt y (List.mem_cons_of_mem _ hy)) hEq
        refine ⟨hI', hA', ?_, ?_⟩
        · intro y hy hyc
          rcases List.mem_cons.mp hy with rfl | hy'
          · exact absurd hyc hx
          · exact hV' y hy' hyc
        · intro m hm hm'
          obtain ⟨y, hy, hyc, hr⟩ := hR' m hm hm'
          exact ⟨y, List.mem_cons_of_mem _ hy, hyc, hr⟩

theorem runRoots_fuel {g : Graph} (hNo : NoOv g) (hWF : WF g) :
    ∀ rs fuel v, InvT g v → (∀ x ∈ rs, x < g.n) → g.n - cntV g v < fuel →
      (runRoots g fuel v rs).isSome := by
  intro rs
  induction rs with
  | nil =>
      intro fuel v _ _ _
      rfl
  | cons x rs ih =>
      intro fuel v hI hlt hf
      unfold runRoots
      by_cases hx : g.closure x = false
      · rw [if_pos hx]
        have h1 := visit_fuel hNo hWF fuel v x hI (hlt x (by simp)) hf
        obtain ⟨p, hp⟩ := Option.isSome_iff_exists.mp h1
        obtain ⟨r1, v1⟩ := p
        rw [hp]
        obtain ⟨hI1, hA1, -, -⟩ := visitA hNo hWF fuel v x r1 v1 hI (hlt x (by simp)) hp
        have hc : cntV g v ≤ cntV g v1 := cntV_mono (fun m hm => hA1.vis_mono hm)
        exact ih fuel v1 hI1 (fun y hy => hlt y (List.mem_cons_of_mem _ hy)) (by omega)
      · rw [if_neg hx]
        exact ih fuel v hI (fun y hy => hlt y (List.mem_cons_of_mem _ hy)) hf

/-- Termination packaged for whole runs: fuel `g.n + 1` always suffices. -/
theorem visitBottomUp_total {g : Graph} (hNo : NoOv g) (hWF : WF g)
    {roots : List Nat} (hroots : ∀ x ∈ roots, x < g.n) :
    (visitBottomUp g (g.n + 1) roots).isSome := by
  apply runRoots_fuel hNo hWF roots (g.n + 1) initV (InvT_init g) hroots
  omega

/-! ### Tier 2: the Tarjan-style run invariant

`Inv2 g A v` holds between `visit` frames, where `A` lists the active
frames (the chain of `visit` invocations currently executing, innermost
first).  A node is "complete" (`Cmp v A`) once visited and not active:
all its edges have been explored. -/

structure Inv2 (g : Graph) (A : List Nat) (v : Visitor) : Prop where
  tier1 : InvT g v
  stack_mem : ∀ m, m ∈ v.stack ↔ Opn v m
  stack_sorted : v.stack.Pairwise (fun a b => v.nodeID b < v.nodeID a)
  id_bound : ∀ m, Opn v m → v.nodeID m ≤ v.visitgen
  act_open : ∀ a ∈ A, Opn v a
  edge_closed : ∀ m, Visited v m → m ∉ A → ∀ e ∈ g.succ m, Visited v e
  done_closed : ∀ m, IsDone v m → ∀ e ∈ g.succ m, IsDone v e
  out_count : ∀ m, (outFlat v.out).count m = if v.nodeID m = sentinel then 1 else 0
  out_head : ∀ c ∈ v.out, c.1 ≠ [] ∧ g.closure c.1.headI = false
  out_order : ∀ o1 c o2, v.out = o1 ++ c :: o2 → ∀ u ∈ c.1, ∀ w ∈ g.succ u,
      w ∈ outFlat (o1 ++ [c])
  out_rec : ∀ c ∈ v.out,
      (c.2 = true ↔ CPath g (fun m => m ∈ c.1) c.1.headI c.1.headI)
  out_scc : (∀ m, g.closure m = false) → ∀ c ∈ v.out, ∀ a ∈ c.1, ∀ b ∈ c.1,
      a = b ∨ CPath g (fun m => m ∈ c.1) a b
  witR : ∀ m, Opn v m → m ∉ A → g.closure m = false →
      ∃ w, Opn v w ∧ v.nodeID w < v.nodeID m ∧ CPath g (Cmp v A) m w
  act_sorted : A.Pairwise (fun a b => v.nodeID b < v.nodeID a)
  ic : ∀ c, g.closure c = true → Opn v c →
      ∃ p, c ∈ g.succ p ∧ Opn v p ∧ v.nodeID p < v.nodeID c ∧
        ∀ a ∈ A, v.nodeID p < v.nodeID a → v.nodeID c ≤ v.nodeID a
  out_parent : SP g → ∀ K ∈ v.out, ∀ c ∈ K.1, g.closure c = true →
      ∀ p, c ∈ g.succ p → p ∈ K.1

/-- Open node ids never reach the sentinel (no-overflow regime). -/
theorem Inv2.opn_lt_sentinel {g : Graph} {A : List Nat} {v : Visitor}
    (hNo : NoOv g) (hI : Inv2 g A v) {m : Nat} (hm : Opn v m) :
    v.nodeID m < sentinel := by
  have h1 := hI.id_bound m hm
  have h2 := hI.tier1.vg_eq
  have h3 := cntV_le g v
  have hNo' : 2 * g.n + 2 < W := hNo
  have hW : W = 4294967296 := rfl
  have hs : sentinel = 4294967295 := rfl
  omega

/-- Distinct open nodes have distinct ids. -/
theorem Inv2.id_inj {g : Graph} {A : List Nat} {v : Visitor}
    (hI : Inv2 g A v) {a b : Nat} (ha : Opn v a) (hb : Opn v b)
    (hab : v.nodeID a = v.nodeID b) : a = b := by
  by_contra hne
  have hsa := (hI.stack_mem a).mpr ha
  have hsb := (hI.stack_mem b).mpr hb
  have hsym : v.stack.Pairwise
      (fun x y => v.nodeID y < v.nodeID x ∨ v.nodeID x < v.nodeID y) :=
    hI.stack_sorted.imp (fun h => Or.inl h)
  have := List.Pairwise.forall (by
    intro x y h
    rcases h with h | h
    · exact Or.inr h
    · exact Or.inl h) hsym hsa hsb hne
  rcases this with h | h <;> omega

/-- Along a path, once a node is finalized everything after it is. -/
theorem done_path {g : Graph} {A : List Nat} {v : Visitor} (hI : Inv2 g A v)
    {C : Nat → Prop} {a b : Nat} (hp : CPath g C a b) (ha : IsDone v a) :
    IsDone v b := by
  induction hp with
  | single he => exact hI.done_closed _ ha _ he
  | cons he _ _ ih => exact ih (hI.done_closed _ ha _ he)

theorem outFlat_append (o1 o2 : List (List Nat × Bool)) :
    outFlat (o1 ++ o2) = outFlat o1 ++ outFlat o2 := by
  simp [outFlat]

theorem outFlat_single (c : List Nat × Bool) : outFlat [c] = c.1 := by
  simp [outFlat]

theorem mem_outFlat {out : List (List Nat × Bool)} {m : Nat} :
    m ∈ outFlat out ↔ ∃ c ∈ out, m ∈ c.1 := by
  simp [outFlat]

theorem Inv2_init (g : Graph) : Inv2 g [] initV := by
  have hz : ∀ m, initV.nodeID m = 0 := fun _ => rfl
  have hnv : ∀ m, ¬ Visited initV m := fun m h => h (hz m)
  have hno : ∀ m, ¬ Opn initV m := fun m h => hnv m h.1
  refine ⟨InvT_init g, ?_, ?_, ?_, ?_, ?_, ?_, ?_, ?_, ?_, ?_, ?_, ?_, ?_, ?_, ?_⟩
  · intro m
    constructor
    · intro h
      exact absurd h (List.not_mem_nil m)
    · intro h
      exact absurd h (hno m)
  · exact List.Pairwise.nil
  · intro m hm
    exact absurd hm (hno m)
  · intro a ha
    exact absurd ha (List.not_mem_nil a)
  · intro m hm
    exact absurd hm (hnv m)
  · intro m hm
    refine absurd hm (fun h => sentinel_ne_zero ?_)
    unfold IsDone at h
    rw [hz m] at h
    exact h.symm
  · intro m
    show ([] : List Nat).count m = _
    rw [if_neg (fun h => sentinel_ne_zero (by rw [hz m] at h; exact h.symm))]
    rfl
  · intro c hc
    exact absurd hc (List.not_mem_nil c)
  · intro o1 c o2 h
    exact absurd h (by simp [initV])
  · intro c hc
    exact absurd hc (List.not_mem_nil c)
  · intro _ c hc
    exact absurd hc (List.not_mem_nil c)
  · intro m hm
    exact absurd hm (hno m)
  · exact List.Pairwise.nil
  · intro c hc hoc
    exact absurd hoc (hno c)
  · intro _ K hK
    exact absurd hK (List.not_mem_nil K)

theorem pushF_vg {v : Visitor} {n : Nat} {g : Graph} (hNo : NoOv g)
    (hT : InvT g v) : (pushF v n).visitgen = v.visitgen + 2 := by
  have hW : W = 4294967296 := rfl
  have h1 := hT.vg_eq
  have h2 := cntV_le g v
  have hNo' : 2 * g.n + 2 < W := hNo
  show ((v.visitgen + 1) % W + 1) % W = _
  rw [hW] at hNo' ⊢
  omega

theorem pushF_id {v : Visitor} {n : Nat} {g : Graph} (hNo : NoOv g)
    (hT : InvT g v) : (pushF v n).nodeID n = v.visitgen + 1 := by
  have hW : W = 4294967296 := rfl
  have h1 := hT.vg_eq
  have h2 := cntV_le g v
  have hNo' : 2 * g.n + 2 < W := hNo
  show setID v.nodeID n ((v.visitgen + 1) % W) n = _
  rw [setID_self, hW]
  rw [hW] at hNo'
  omega

theorem pushF_other (v : Visitor) {n m : Nat} (h : m ≠ n) :
    (pushF v n).nodeID m = v.nodeID m := setID_other _ _ h

/-- Entering a fresh frame `n` with active chain `A` preserves the run
invariant with active chain `n :: A`. -/
theorem Inv2_pushF {g : Graph} {A : List Nat} {v : Visitor} {n : Nat}
    (hNo : NoOv g) (hI : Inv2 g A v) (hn : n < g.n) (h0 : v.nodeID n = 0)
    (hcall : g.closure n = true →
      ∃ p, n ∈ g.succ p ∧ p ∈ A ∧ ∀ a ∈ A, v.nodeID a ≤ v.nodeID p) :
    Inv2 g (n :: A) (pushF v n) := by
  have hW : W = 4294967296 := rfl
  have hs : sentinel = 4294967295 := rfl
  have hvg := hI.tier1.vg_eq
  have hcnt := cntV_le g v
  have hNo' : 2 * g.n + 2 < W := hNo
  have hvgp := pushF_vg hNo hI.tier1 (n := n)
  have hidp := pushF_id hNo hI.tier1 (n := n)
  have hT := (InvT_pushF hNo hI.tier1 hn h0).1
  have hopnn : Opn (pushF v n) n := by
    constructor
    · unfold Visited
      rw [hidp]
      omega
    · unfold IsDone
      rw [hidp]
      omega
  have hnotv : ¬ Visited v n := fun h => h h0
  have hvisd : ∀ m, m ≠ n → (Visited (pushF v n) m ↔ Visited v m) := by
    intro m hm
    unfold Visited
    rw [pushF_other v hm]
  have hdoned : ∀ m, IsDone (pushF v n) m ↔ IsDone v m := by
    intro m
    by_cases hm : m = n
    · subst hm
      unfold IsDone
      rw [hidp]
      constructor
      · intro h; omega
      · intro h; exact absurd h (by rw [h0]; omega)
    · unfold IsDone
      rw [pushF_other v hm]
  have hopnd : ∀ m, m ≠ n → (Opn (pushF v n) m ↔ Opn v m) := by
    intro m hm
    unfold Opn
    rw [hvisd m hm, hdoned m]
  have hidoth : ∀ m, Opn v m → (pushF v n).nodeID m = v.nodeID m := by
    intro m hm
    have : m ≠ n := fun h => hm.1 (h ▸ h0)
    exact pushF_other v this
  refine ⟨hT, ?_, ?_, ?_, ?_, ?_, ?_, ?_, ?_, ?_, ?_, ?_, ?_, ?_, ?_, ?_⟩
  · intro m
    show m ∈ n :: v.stack ↔ _
    constructor
    · intro hm
      rcases List.mem_cons.mp hm with rfl | hm'
      · exact hopnn
      · have ho := (hI.stack_mem m).mp hm'
        have : m ≠ n := fun h => ho.1 (h ▸ h0)
        exact (hopnd m this).mpr ho
    · intro hm
      by_cases hmn : m = n
      · exact hmn ▸ List.mem_cons_self _ _
      · exact List.mem_cons_of_mem _ ((hI.stack_mem m).mpr ((hopnd m hmn).mp hm))
  · show List.Pairwise _ (n :: v.stack)
    refine List.Pairwise.cons ?_ ?_
    · intro b hb
      have hob := (hI.stack_mem b).mp hb
      have hbn : b ≠ n := fun h => hob.1 (h ▸ h0)
      rw [hidp, pushF_other v hbn]
      have := hI.id_bound b hob
      omega
    · refine hI.stack_sorted.imp_of_mem ?_
      intro a b ha hb hlt
      have hoa := (hI.stack_mem a).mp ha
      have hob := (hI.stack_mem b).mp hb
      rw [hidoth a hoa, hidoth b hob]
      exact hlt
  · intro m hm
    by_cases hmn : m = n
    · subst hmn
      rw [hidp, hvgp]
      omega
    · rw [pushF_other v hmn, hvgp]
      have := hI.id_bound m ((hopnd m hmn).mp hm)
      omega
  · intro a ha
    rcases List.mem_cons.mp ha with rfl | ha'
    · exact hopnn
    · have ho := hI.act_open a ha'
      have : a ≠ n := fun h => ho.1 (h ▸ h0)
      exact (hopnd a this).mpr ho
  · intro m hm hmA e he
    have hmn : m ≠ n := fun h => (hmA (h ▸ List.mem_cons_self _ _))
    have hmv : Visited v m := (hvisd m hmn).mp hm
    have hmA' : m ∉ A := fun h => hmA (List.mem_cons_of_mem _ h)
    have := hI.edge_closed m hmv hmA' e he
    by_cases hen : e = n
    · unfold Visited
      rw [hen, hidp]
      omega
    · exact (hvisd e hen).mpr this
  · intro m hm e he
    have hde := hI.done_closed m ((hdoned m).mp hm) e he
    have hen : e ≠ n := by
      intro h
      rw [h] at hde
      unfold IsDone at hde
      rw [h0, hs] at hde
      omega
    exact (hdoned e).mpr hde
  · intro m
    show (outFlat v.out).count m = _
    rw [hI.out_count m]
    by_cases hd : v.nodeID m = sentinel
    · have hd' : (pushF v n).nodeID m = sentinel := (hdoned m).mpr hd
      rw [if_pos hd, if_pos hd']
    · have hd' : ¬ (pushF v n).nodeID m = sentinel := fun h => hd ((hdoned m).mp h)
      rw [if_neg hd, if_neg hd']
  · exact hI.out_head
  · exact hI.out_order
  · exact hI.out_rec
  · exact hI.out_scc
  · intro m hm hmA hmc
    have hmn : m ≠ n := fun h => hmA (h ▸ List.mem_cons_self _ _)
    have hmA' : m ∉ A := fun h => hmA (List.mem_cons_of_mem _ h)
    obtain ⟨w, hw, hlt, hp⟩ := hI.witR m ((hopnd m hmn).mp hm) hmA' hmc
    have hwn : w ≠ n := fun h => hw.1 (h ▸ h0)
    refine ⟨w, (hopnd w hwn).mpr hw, ?_, ?_⟩
    · rw [pushF_other v hwn, pushF_other v hmn]
      exact hlt
    · refine hp.mono ?_
      intro x hx
      have hxn : x ≠ n := fun h => hx.1 (h ▸ h0)
      refine ⟨(hvisd x hxn).mpr hx.1, ?_⟩
      intro hxm
      rcases List.mem_cons.mp hxm with h | h
      · exact hxn h
      · exact hx.2 h
  · -- act_sorted
    refine List.Pairwise.cons ?_ ?_
    · intro b hb
      have hob := hI.act_open b hb
      have hbn : b ≠ n := fun h => hob.1 (h ▸ h0)
      rw [hidp, pushF_other v hbn]
      have := hI.id_bound b hob
      omega
    · refine hI.act_sorted.imp_of_mem ?_
      intro a b ha hb hlt
      have hoa := hI.act_open a ha
      have hob := hI.act_open b hb
      rw [hidoth a hoa, hidoth b hob]
      exact hlt
  · -- ic
    intro c hc hoc
    by_cases hcn : c = n
    · subst hcn
      obtain ⟨p, hpe, hpA, hpmax⟩ := hcall hc
      have hop : Opn v p := hI.act_open p hpA
      have hpn : p ≠ c := fun h => hop.1 (h ▸ h0)
      refine ⟨p, hpe, (hopnd p hpn).mpr hop, ?_, ?_⟩
      · rw [pushF_other v hpn, hidp]
        have := hI.id_bound p hop
        omega
      · intro a ha hlt
        rcases List.mem_cons.mp ha with rfl | ha'
        · exact le_refl _
        · exfalso
          have hoa := hI.act_open a ha'
          have han : a ≠ c := fun h => hoa.1 (h ▸ h0)
          rw [pushF_other v hpn, pushF_other v han] at hlt
          have := hpmax a ha'
          omega
    · have hoc' : Opn v c := (hopnd c hcn).mp hoc
      obtain ⟨p, hpe, hop, hplt, hpcond⟩ := hI.ic c hc hoc'
      have hpn : p ≠ n := fun h => hop.1 (h ▸ h0)
      refine ⟨p, hpe, (hopnd p hpn).mpr hop, ?_, ?_⟩
      · rw [pushF_other v hpn, pushF_other v hcn]
        exact hplt
      · intro a ha hlt
        rcases List.mem_cons.mp ha with rfl | ha'
        · rw [pushF_other v hcn, hidp]
          have := hI.id_bound c hoc'
          omega
        · have hoa := hI.act_open a ha'
          have han : a ≠ n := fun h => hoa.1 (h ▸ h0)
          rw [pushF_other v hpn, pushF_other v han] at hlt
          rw [pushF_other v hcn, pushF_other v han]
          exact hpcond a ha' hlt
  · -- out_parent
    exact hI.out_parent

/-- Pre-existing open nodes survive any (sub-)traversal, with their id. -/
theorem AOut.opn_keep_id {v v' : Visitor} (h : AOut v v') {m : Nat}
    (hm : Opn v m) : Opn v' m ∧ v'.nodeID m = v.nodeID m := by
  have hu := h.untouched m hm.1
  have h1 : Visited v' m := by
    unfold Visited at *
    rw [hu]
    exact hm.1
  have h2 : ¬ IsDone v' m := by
    unfold IsDone at *
    rw [hu]
    exact hm.2
  exact ⟨⟨h1, h2⟩, hu⟩

/-- If a node is open after and was already visited before, it was open
before with the same id. -/
theorem AOut.opn_back {v v' : Visitor} (h : AOut v v') {m : Nat}
    (hm : Opn v' m) (hv : Visited v m) : Opn v m ∧ v'.nodeID m = v.nodeID m := by
  have hu := h.untouched m hv
  refine ⟨⟨hv, ?_⟩, hu⟩
  intro hd
  exact hm.2 (by unfold IsDone at *; rw [hu]; exact hd)

/-- Tier-2 postcondition of a fresh `visit` of `n` with active chain `A`:
`r` is the returned low-link, `v.visitgen + 1` the id assigned to `n`. -/
structure FOut (g : Graph) (A : List Nat) (v : Visitor) (n r : Nat)
    (v' : Visitor) : Prop where
  r_le : r ≤ v.visitgen + 2
  vis_n : Visited v' n
  new_open_big : ∀ m, ¬ Visited v m → m ≠ n → Opn v' m →
      v.visitgen + 1 < v'.nodeID m
  new_open_path : ∀ m, ¬ Visited v m → m ≠ n → Opn v' m →
      CPath g (Cmp v' A) n m
  wit : r < v.visitgen + 1 → ∃ w, Opn v' w ∧ v'.nodeID w = r ∧
      CPath g (Cmp v' A) n w
  self_wit : r = v.visitgen + 1 → CPath g (Cmp v' A) n n
  edge_key : ∀ u, (u = n ∨ (¬ Visited v u ∧ Visited v' u)) → ∀ w ∈ g.succ u,
      Opn v' w → r ≤ v'.nodeID w ∨ v.visitgen + 1 < v'.nodeID w
  fate_open : ¬ IsDone v' n → v'.nodeID n = v.visitgen + 1 ∧
      ¬ ((r = v.visitgen + 1 ∨ r = v.visitgen + 2) ∧ g.closure n = false)
  fate_done : IsDone v' n → (r = v.visitgen + 1 ∨ r = v.visitgen + 2) ∧
      g.closure n = false ∧ v'.stack = v.stack ∧
      ∃ d tl, v'.out = v.out ++ d ++ [(n :: tl, decide (r = v.visitgen + 1))] ∧
        (∀ x ∈ tl, ¬ Visited v x ∧ IsDone v' x)

/-- The walk lemma: following a complete path from the current frame (or a
node first visited inside it), the accumulated low-link either already
dropped below the frame id, or bounds / is exceeded by the endpoint's id.
`P` marks nodes first visited inside the frame. -/
theorem walkW {g : Graph} {A : List Nat} {v3 : Visitor} {n idn r : Nat}
    {P : Nat → Prop}
    (hI3 : Inv2 g (n :: A) v3)
    (hEK : ∀ x, (x = n ∨ P x) → ∀ w ∈ g.succ x, Opn v3 w →
        r ≤ v3.nodeID w ∨ idn < v3.nodeID w)
    (hP : ∀ m, Opn v3 m → idn < v3.nodeID m → P m)
    (hidn : v3.nodeID n = idn) (hopn : Opn v3 n) :
    ∀ a b, (a = n ∨ P a) → CPath g (Cmp v3 (n :: A)) a b → Opn v3 b →
      r < idn ∨ r ≤ v3.nodeID b ∨ idn < v3.nodeID b := by
  intro a b ha hpath
  revert ha
  induction hpath with
  | single he =>
      intro ha hb
      rcases hEK _ ha _ he hb with h | h
      · exact Or.inr (Or.inl h)
      · exact Or.inr (Or.inr h)
  | cons he hy rest ih =>
      intro ha hb
      rename_i x y z
      have hyop : Opn v3 y := by
        constructor
        · exact hy.1
        · intro hd
          exact hb.2 (done_path hI3 rest hd)
      have hyn : y ≠ n := fun h => hy.2 (h ▸ List.mem_cons_self _ _)
      rcases hEK _ ha _ he hyop with h | h
      · by_cases hcmp : idn < v3.nodeID y
        · exact ih (Or.inr (hP y hyop hcmp)) hb
        · have : v3.nodeID y ≠ idn := by
            intro hEqid
            exact hyn (hI3.id_inj hyop hopn (hEqid.trans hidn.symm))
          omega
      · exact ih (Or.inr (hP y hyop h)) hb

/-- When the low-link did not drop below the frame id, every complete path
out of the frame has its intermediate nodes open inside the frame. -/
theorem pathMembers {g : Graph} {A : List Nat} {v3 : Visitor} {n idn r : Nat}
    {P : Nat → Prop}
    (hI3 : Inv2 g (n :: A) v3)
    (hEK : ∀ x, (x = n ∨ P x) → ∀ w ∈ g.succ x, Opn v3 w →
        r ≤ v3.nodeID w ∨ idn < v3.nodeID w)
    (hP : ∀ m, Opn v3 m → idn < v3.nodeID m → P m)
    (hidn : v3.nodeID n = idn) (hopn : Opn v3 n) (hr : idn ≤ r) :
    ∀ a b, (a = n ∨ P a) → CPath g (Cmp v3 (n :: A)) a b → Opn v3 b →
      CPath g (fun m => Opn v3 m ∧ idn < v3.nodeID m) a b := by
  intro a b ha hpath
  revert ha
  induction hpath with
  | single he =>
      intro _ _
      exact CPath.single he
  | cons he hy rest ih =>
      intro ha hb
      rename_i x y z
      have hyop : Opn v3 y := by
        constructor
        · exact hy.1
        · intro hd
          exact hb.2 (done_path hI3 rest hd)
      have hyn : y ≠ n := fun h => hy.2 (h ▸ List.mem_cons_self _ _)
      have hybig : idn < v3.nodeID y := by
        rcases hEK _ ha _ he hyop with h | h
        · have : v3.nodeID y ≠ idn := by
            intro hEqid
            exact hyn (hI3.id_inj hyop hopn (hEqid.trans hidn.symm))
          omega
        · exact h
      exact CPath.cons he ⟨hyop, hybig⟩ (ih (Or.inr (hP y hyop hybig)) hb)

/-- Tier-2 loop invariant of the edge fold of frame `n` (frame id `idn`,
state `v₀` just after the push).  `ps` lists the already-processed edge
targets, `es` the remaining ones, `mn` the running minimum. -/
theorem foldB {g : Graph} (hNo : NoOv g) (hWF : WF g) {fuel : Nat}
    (IH : ∀ A v n r v', Inv2 g A v → n < g.n →
      (g.closure n = true →
        ∃ p, n ∈ g.succ p ∧ p ∈ A ∧ ∀ a ∈ A, v.nodeID a ≤ v.nodeID p) →
      visit g fuel v n = some (r, v') →
      Inv2 g A v' ∧ AOut v v' ∧ (Visited v n → v' = v ∧ r = v.nodeID n) ∧
      (¬ Visited v n → FOut g A v n r v'))
    {A : List Nat} {n idn : Nat} {v₀ : Visitor}
    (hnlt : n < g.n) (hvg0 : idn < v₀.visitgen) :
    ∀ es ps u mn r v3,
      (∀ e ∈ es, e ∈ g.succ n ∧ e < g.n) →
      Inv2 g (n :: A) u → AOut v₀ u → Opn u n →
      mn ≤ idn + 1 →
      (mn = idn + 1 ∨ ∃ w, Opn u w ∧ u.nodeID w = mn ∧
        CPath g (Cmp u (n :: A)) n w) →
      (∀ m, ¬ Visited v₀ m → Opn u m →
        CPath g (Cmp u (n :: A)) n m ∧ idn < u.nodeID m) →
      (∀ x, ¬ Visited v₀ x → Visited u x → ∀ w ∈ g.succ x, Opn u w →
          mn ≤ u.nodeID w ∨ idn < u.nodeID w) →
      (∀ e ∈ ps, Visited u e) →
      (∀ e ∈ ps, Opn u e → mn ≤ u.nodeID e ∨ idn < u.nodeID e) →
      edgeFold (visit g fuel) u es mn = some (r, v3) →
      Inv2 g (n :: A) v3 ∧ AOut v₀ v3 ∧ Opn v3 n ∧ r ≤ mn ∧
      (r = idn + 1 ∨ ∃ w, Opn v3 w ∧ v3.nodeID w = r ∧
        CPath g (Cmp v3 (n :: A)) n w) ∧
      (∀ m, ¬ Visited v₀ m → Opn v3 m →
        CPath g (Cmp v3 (n :: A)) n m ∧ idn < v3.nodeID m) ∧
      (∀ x, ¬ Visited v₀ x → Visited v3 x → ∀ w ∈ g.succ x, Opn v3 w →
          r ≤ v3.nodeID w ∨ idn < v3.nodeID w) ∧
      (∀ e ∈ ps ++ es, Visited v3 e) ∧
      (∀ e ∈ ps ++ es, Opn v3 e → r ≤ v3.nodeID e ∨ idn < v3.nodeID e) := by
  intro es
  induction es with
  | nil =>
      intro ps u mn r v3 _ hI2 hAO hOpn hle hwit hnp hen hpsv hpse hEq
      rw [edgeFold_nil] at hEq
      obtain ⟨h1, h2⟩ := Prod.mk.injEq .. ▸ Option.some.inj hEq
      subst h1 h2
      simp only [List.append_nil]
      exact ⟨hI2, hAO, hOpn, le_refl _, hwit, hnp, hen, hpsv, hpse⟩
  | cons e es ih =>
      intro ps u mn r v3 hes hI2 hAO hOpn hle hwit hnp hen hpsv hpse hEq
      obtain ⟨he_succ, he_lt⟩ := hes e (by simp)
      rw [edgeFold_cons] at hEq
      cases hve : visit g fuel u e with
      | none => rw [hve] at hEq; exact absurd hEq (by simp)
      | some p =>
          obtain ⟨q, u₁⟩ := p
          rw [hve] at hEq
          simp only at hEq
          obtain ⟨hI2₁, hAOu₁, hmemo, hfresh⟩ := IH (n :: A) u e q u₁ hI2 he_lt
            (fun _ => ⟨n, he_succ, List.mem_cons_self _ _, fun a ha => by
              rcases List.mem_cons.mp ha with rfl | ha'
              · exact le_refl _
              · exact le_of_lt
                  (List.rel_of_pairwise_cons hI2.act_sorted ha')⟩) hve
          have hvgu : idn < u.visitgen := lt_of_lt_of_le hvg0 hAO.vg_le
          have hvgsent : u.visitgen < sentinel := by
            have h1 := hI2.tier1.vg_eq
            have h2 := cntV_le g u
            have h3 : 2 * g.n + 2 < W := hNo
            have hW : W = 4294967296 := rfl
            have hsent : sentinel = 4294967295 := rfl
            omega
          have hrest : ps ++ e :: es = (ps ++ [e]) ++ es := by
            rw [List.append_assoc]
            rfl
          by_cases hvis_e : Visited u e
          · -- already-visited target: lines 69-72
            obtain ⟨hu1, hq⟩ := hmemo hvis_e
            rw [hu1, hq] at hEq
            by_cases hlt : u.nodeID e < mn
            · rw [if_pos hlt] at hEq
              have hope : Opn u e := by
                refine ⟨hvis_e, ?_⟩
                intro hd
                unfold IsDone at hd
                omega
              have hres := ih (ps ++ [e]) u (u.nodeID e) r v3
                (fun x hx => hes x (List.mem_cons_of_mem _ hx)) hI2 hAO hOpn
                (by omega)
                (Or.inr ⟨e, hope, rfl, CPath.single he_succ⟩)
                hnp
                (fun x hx0 hx1 w hw hwo => by
                  rcases hen x hx0 hx1 w hw hwo with h | h
                  · exact Or.inl (by omega)
                  · exact Or.inr h)
                (fun x hx => by
                  rcases List.mem_append.mp hx with h | h
                  · exact hpsv x h
                  · rcases List.mem_singleton.mp h with rfl
                    exact hvis_e)
                (fun x hx hxo => by
                  rcases List.mem_append.mp hx with h | h
                  · rcases hpse x h hxo with h' | h'
                    · exact Or.inl (by omega)
                    · exact Or.inr h'
                  · rcases List.mem_singleton.mp h with rfl
                    exact Or.inl (le_refl _))
                hEq
              rw [hrest]
              exact ⟨hres.1, hres.2.1, hres.2.2.1, by omega, hres.2.2.2.2⟩
            · rw [if_neg hlt] at hEq
              have hres := ih (ps ++ [e]) u mn r v3
                (fun x hx => hes x (List.mem_cons_of_mem _ hx)) hI2 hAO hOpn
                hle hwit hnp hen
                (fun x hx => by
                  rcases List.mem_append.mp hx with h | h
                  · exact hpsv x h
                  · rcases List.mem_singleton.mp h with rfl
                    exact hvis_e)
                (fun x hx hxo => by
                  rcases List.mem_append.mp hx with h | h
                  · exact hpse x h hxo
                  · rcases List.mem_singleton.mp h with rfl
                    exact Or.inl (by omega))
                hEq
              rw [hrest]
              exact hres
          · -- fresh target
            have hF := hfresh hvis_e
            have hOpn₁ := hAOu₁.opn_keep_id hOpn
            have he_notin : e ∉ n :: A := by
              intro h
              exact hvis_e (hI2.act_open e h).1
            have hCmpE : Cmp u₁ (n :: A) e := ⟨hF.vis_n, he_notin⟩
            have hCmpMono : ∀ x, Cmp u (n :: A) x → Cmp u₁ (n :: A) x :=
              fun x hx => ⟨hAOu₁.vis_mono hx.1, hx.2⟩
            have hmin_le : (if q < mn then q else mn) ≤ mn := by
              split <;> omega
            have hmin_le_q : ¬ (q < mn) → (if q < mn then q else mn) ≤ q := by
              intro h
              rw [if_neg h]
              omega
            have hnewwit : q < mn →
                ∃ w, Opn u₁ w ∧ u₁.nodeID w = q ∧
                  CPath g (Cmp u₁ (n :: A)) n w := by
              intro hq
              have : q < u.visitgen + 1 := by omega
              obtain ⟨w, hw, hwid, hwp⟩ := hF.wit this
              exact ⟨w, hw, hwid, CPath.cons he_succ hCmpE hwp⟩
            have hwit' : (if q < mn then q else mn) = idn + 1 ∨
                ∃ w, Opn u₁ w ∧ u₁.nodeID w = (if q < mn then q else mn) ∧
                  CPath g (Cmp u₁ (n :: A)) n w := by
              by_cases hq : q < mn
              · rw [if_pos hq]
                exact Or.inr (hnewwit hq)
              · rw [if_neg hq]
                rcases hwit with h | ⟨w, hw, hwid, hwp⟩
                · exact Or.inl h
                · obtain ⟨hw', hwid'⟩ := hAOu₁.opn_keep_id hw
                  exact Or.inr ⟨w, hw', by rw [hwid']; exact hwid,
                    hwp.mono hCmpMono⟩
            have hnp' : ∀ m, ¬ Visited v₀ m → Opn u₁ m →
                CPath g (Cmp u₁ (n :: A)) n m ∧ idn < u₁.nodeID m := by
              intro m hm0 hm1
              by_cases hmu : Visited u m
              · obtain ⟨hou, hideq⟩ := hAOu₁.opn_back hm1 hmu
                obtain ⟨hp, hb⟩ := hnp m hm0 hou
                exact ⟨hp.mono hCmpMono, by rw [hideq]; exact hb⟩
              · by_cases hme : m = e
                · subst hme
                  obtain ⟨hid, -⟩ := hF.fate_open hm1.2
                  exact ⟨CPath.single he_succ, by rw [hid]; omega⟩
                · refine ⟨CPath.cons he_succ hCmpE
                    (hF.new_open_path m hmu hme hm1), ?_⟩
                  have := hF.new_open_big m hmu hme hm1
                  omega
            have hen' : ∀ x, ¬ Visited v₀ x → Visited u₁ x → ∀ w ∈ g.succ x,
                Opn u₁ w → (if q < mn then q else mn) ≤ u₁.nodeID w ∨
                  idn < u₁.nodeID w := by
              intro x hx0 hx1 w hw hwo
              by_cases hxu : Visited u x
              · by_cases hwu : Visited u w
                · obtain ⟨hwopnu, hwid⟩ := hAOu₁.opn_back hwo hwu
                  rcases hen x hx0 hxu w hw hwopnu with h | h
                  · exact Or.inl (by rw [hwid]; omega)
                  · exact Or.inr (by rw [hwid]; omega)
                · by_cases hwe : w = e
                  · subst hwe
                    obtain ⟨hid, -⟩ := hF.fate_open hwo.2
                    exact Or.inr (by rw [hid]; omega)
                  · have := hF.new_open_big w hwu hwe hwo
                    exact Or.inr (by omega)
              · have hxarg : x = e ∨ (¬ Visited u x ∧ Visited u₁ x) := by
                  by_cases hxe : x = e
                  · exact Or.inl hxe
                  · exact Or.inr ⟨hxu, hx1⟩
                rcases hF.edge_key x hxarg w hw hwo with h | h
                · refine Or.inl (le_trans ?_ h)
                  split <;> omega
                · exact Or.inr (by omega)
            have hpsv' : ∀ x ∈ ps ++ [e], Visited u₁ x := by
              intro x hx
              rcases List.mem_append.mp hx with h | h
              · exact hAOu₁.vis_mono (hpsv x h)
              · rcases List.mem_singleton.mp h with rfl
                exact hF.vis_n
            have hpse' : ∀ x ∈ ps ++ [e], Opn u₁ x →
                (if q < mn then q else mn) ≤ u₁.nodeID x ∨ idn < u₁.nodeID x := by
              intro x hx hxo
              rcases List.mem_append.mp hx with h | h
              · obtain ⟨hopnu, hxid⟩ := hAOu₁.opn_back hxo (hpsv x h)
                rcases hpse x h hopnu with h' | h'
                · exact Or.inl (by rw [hxid]; omega)
                · exact Or.inr (by rw [hxid]; omega)
              · rcases List.mem_singleton.mp h with rfl
                obtain ⟨hid, -⟩ := hF.fate_open hxo.2
                exact Or.inr (by rw [hid]; omega)
            have hres := ih (ps ++ [e]) u₁ (if q < mn then q else mn) r v3
              (fun x hx => hes x (List.mem_cons_of_mem _ hx)) hI2₁
              (AOut.trans hAO hAOu₁) hOpn₁.1
              (le_trans hmin_le hle) hwit' hnp' hen' hpsv' hpse' hEq
            rw [hrest]
            exact ⟨hres.1, hres.2.1, hres.2.2.1,
              le_trans hres.2.2.2.1 hmin_le, hres.2.2.2.2⟩

/-- A cycle at `n` whose intermediates are in `n :: tl` contains a cycle at
`n` whose intermediates are in `tl`. -/
theorem strip_cycle {g : Graph} {n : Nat} {tl : List Nat} :
    ∀ a b, CPath g (fun m => m ∈ n :: tl) a b → b = n →
      CPath g (fun m => m ∈ tl) a n ∨ CPath g (fun m => m ∈ tl) n n := by
  intro a b hp
  induction hp with
  | single he =>
      intro hb
      subst hb
      exact Or.inl (CPath.single he)
  | cons he hy rest ih =>
      intro hb
      rcases ih hb with h | h
      · rcases List.mem_cons.mp hy with rfl | hy'
        · exact Or.inr h
        · exact Or.inl (CPath.cons he hy' h)
      · exact Or.inr h

/-- Nodes on a pairwise-decreasing stack are distinct. -/
theorem pairwise_nodup {v : Visitor} {l : List Nat}
    (h : l.Pairwise (fun a b => v.nodeID b < v.nodeID a)) : l.Nodup := by
  refine h.imp ?_
  intro a b hab he
  subst he
  omega

theorem AOut_pushF {g : Graph} {v : Visitor} {n : Nat} (hNo : NoOv g)
    (hT : InvT g v) (h0 : v.nodeID n = 0) : AOut v (pushF v n) := by
  refine ⟨?_, ⟨[n], rfl, ?_⟩, ?_, ⟨[], by simp [pushF]⟩⟩
  · intro m hm
    have hmn : m ≠ n := fun h => hm (h ▸ h0)
    exact pushF_other v hmn
  · intro m hm
    rcases List.mem_singleton.mp hm with rfl
    intro hv
    exact hv h0
  · rw [pushF_vg hNo hT]
    omega

/-- Closing a component (lines 122-148): all Tier-2 facts for the state
after the pop, given the fold's postconditions. -/
theorem closeB {g : Graph} {A : List Nat} {v v3 : Visitor} {n mnf : Nat}
    {nw : List Nat} (hNo : NoOv g)
    (hI2 : Inv2 g A v) (hn : n < g.n) (h0 : v.nodeID n = 0)
    (hI23 : Inv2 g (n :: A) v3)
    (hAO3 : AOut (pushF v n) v3)
    (hOpn3 : Opn v3 n)
    (hst3 : v3.stack = nw ++ n :: v.stack)
    (hnw : ∀ m ∈ nw, ¬ Visited (pushF v n) m)
    (hmnf_le : mnf ≤ v.visitgen + 2)
    (hwit3 : mnf = v.visitgen + 2 ∨ ∃ w, Opn v3 w ∧ v3.nodeID w = mnf ∧
      CPath g (Cmp v3 (n :: A)) n w)
    (hnp3 : ∀ m, ¬ Visited (pushF v n) m → Opn v3 m →
      CPath g (Cmp v3 (n :: A)) n m ∧ v.visitgen + 1 < v3.nodeID m)
    (hen3 : ∀ x, ¬ Visited (pushF v n) x → Visited v3 x → ∀ w ∈ g.succ x,
      Opn v3 w → mnf ≤ v3.nodeID w ∨ v.visitgen + 1 < v3.nodeID w)
    (hpsv3 : ∀ e ∈ g.succ n, Visited v3 e)
    (hpse3 : ∀ e ∈ g.succ n, Opn v3 e →
      mnf ≤ v3.nodeID e ∨ v.visitgen + 1 < v3.nodeID e)
    (hcond : (mnf = v.visitgen + 1 ∨ mnf = v.visitgen + 2) ∧
      g.closure n = false) :
    Inv2 g A (closeF v3 n (v.visitgen + 1) mnf) ∧
    AOut v (closeF v3 n (v.visitgen + 1) mnf) ∧
    FOut g A v n mnf (closeF v3 n (v.visitgen + 1) mnf) := by
  have hT := hI2.tier1
  have hW : W = 4294967296 := rfl
  have hsent : sentinel = 4294967295 := rfl
  have hNo' : 2 * g.n + 2 < W := hNo
  have hcnt := cntV_le g v
  have hvg := hT.vg_eq
  have hApush := AOut_pushF hNo hT h0
  have hA0 : AOut v v3 := AOut.trans hApush hAO3
  have hvisPn : Visited (pushF v n) n := by
    unfold Visited
    rw [pushF_id hNo hT]
    omega
  have hid3 : v3.nodeID n = v.visitgen + 1 := by
    rw [hAO3.untouched n hvisPn, pushF_id hNo hT]
  have hnnw : n ∉ nw := fun h => hnw n h hvisPn
  have hpop : popTo n v3.stack = (nw ++ [n], v.stack) := by
    rw [hst3]; exact popTo_append hnnw
  have hCnode : ∀ m, (closeF v3 n (v.visitgen + 1) mnf).nodeID m =
      if m ∈ nw ++ [n] then sentinel else v3.nodeID m := by
    intro m
    show setMany v3.nodeID (popTo n v3.stack).1 sentinel m = _
    rw [hpop]
    by_cases hm : m ∈ nw ++ [n]
    · rw [setMany_mem _ _ hm, if_pos hm]
    · rw [setMany_not_mem _ _ hm, if_neg hm]
  have hCstack : (closeF v3 n (v.visitgen + 1) mnf).stack = v.stack := by
    show (popTo n v3.stack).2 = _
    rw [hpop]
  have hCout : (closeF v3 n (v.visitgen + 1) mnf).out =
      v3.out ++ [(n :: nw.reverse, decide (mnf = v.visitgen + 1))] := by
    show v3.out ++ [((popTo n v3.stack).1.reverse, _)] = _
    rw [hpop]
    simp
  have hCvg : (closeF v3 n (v.visitgen + 1) mnf).visitgen = v3.visitgen := rfl
  have hvgsent3 : v3.visitgen < sentinel := by
    have h1 := hI23.tier1.vg_eq
    have h2 := cntV_le g v3
    omega
  have hvg3 : v.visitgen + 2 ≤ v3.visitgen := by
    have := hAO3.vg_le
    rw [pushF_vg hNo hT] at this
    exact this
  have hpopvis : ∀ m ∈ nw ++ [n], Opn v3 m := by
    intro m hm
    rcases List.mem_append.mp hm with h | h
    · exact (hI23.stack_mem m).mp (by rw [hst3]; exact List.mem_append.mpr (Or.inl h))
    · rcases List.mem_singleton.mp h with rfl
      exact hOpn3
  have hprenotpop : ∀ m, Visited v m → m ∉ nw ++ [n] := by
    intro m hm hmem
    rcases List.mem_append.mp hmem with h | h
    · exact hnw m h (hApush.vis_mono hm)
    · rcases List.mem_singleton.mp h with rfl
      exact hm h0
  have hCvis : ∀ m, Visited v3 m ↔
      Visited (closeF v3 n (v.visitgen + 1) mnf) m := by
    intro m
    unfold Visited
    rw [hCnode]
    by_cases hm : m ∈ nw ++ [n]
    · rw [if_pos hm]
      constructor
      · intro _; exact sentinel_ne_zero
      · intro _; exact (hpopvis m hm).1
    · rw [if_neg hm]
  have hinf : ∀ m, Opn v3 m → v.visitgen + 1 ≤ v3.nodeID m → m ∈ nw ++ [n] := by
    intro m hm hge
    have hms := (hI23.stack_mem m).mpr hm
    rw [hst3] at hms
    rcases List.mem_append.mp hms with h | h
    · exact List.mem_append.mpr (Or.inl h)
    · rcases List.mem_cons.mp h with rfl | h'
      · exact List.mem_append.mpr (Or.inr (List.mem_singleton.mpr rfl))
      · exfalso
        have hov : Opn v m := (hI2.stack_mem m).mp h'
        have := hI2.id_bound m hov
        have := hA0.untouched m hov.1
        omega
  have hinf' : ∀ m ∈ nw ++ [n], v.visitgen + 1 ≤ v3.nodeID m := by
    intro m hm
    rcases List.mem_append.mp hm with h | h
    · have := (hnp3 m (hnw m h) (hpopvis m (List.mem_append.mpr (Or.inl h)))).2
      omega
    · rcases List.mem_singleton.mp h with rfl
      omega
  have hr_ge : v.visitgen + 1 ≤ mnf := by
    rcases hcond.1 with h | h <;> omega
  have hEK : ∀ x, (x = n ∨ (¬ Visited (pushF v n) x ∧ Visited v3 x)) →
      ∀ w ∈ g.succ x, Opn v3 w →
      mnf ≤ v3.nodeID w ∨ v.visitgen + 1 < v3.nodeID w := by
    intro x hx w hw hwo
    rcases hx with rfl | ⟨hx1, hx2⟩
    · exact hpse3 w hw hwo
    · exact hen3 x hx1 hx2 w hw hwo
  have hP : ∀ m, Opn v3 m → v.visitgen + 1 < v3.nodeID m →
      ¬ Visited (pushF v n) m ∧ Visited v3 m := by
    intro m hm hbig
    have hmem := hinf m hm (by omega)
    rcases List.mem_append.mp hmem with h | h
    · exact ⟨hnw m h, hm.1⟩
    · rcases List.mem_singleton.mp h with rfl
      omega
  have hnotinA : ∀ m, ¬ Visited (pushF v n) m → m ∉ n :: A := by
    intro m hm hmem
    rcases List.mem_cons.mp hmem with rfl | h
    · exact hm hvisPn
    · exact hm (hApush.vis_mono (hI2.act_open m h).1)
  have hsucc_done : ∀ u ∈ nw ++ [n], ∀ w ∈ g.succ u,
      IsDone (closeF v3 n (v.visitgen + 1) mnf) w := by
    intro u hu w hw
    have hwv : Visited v3 w := by
      rcases List.mem_append.mp hu with h | h
      · exact hI23.edge_closed u (hpopvis u hu).1 (hnotinA u (hnw u h)) w hw
      · rcases List.mem_singleton.mp h with rfl
        exact hpsv3 w hw
    by_cases hwd : IsDone v3 w
    · unfold IsDone
      rw [hCnode]
      split
      · rfl
      · exact hwd
    · have hwo : Opn v3 w := ⟨hwv, hwd⟩
      have harg : u = n ∨ (¬ Visited (pushF v n) u ∧ Visited v3 u) := by
        rcases List.mem_append.mp hu with h | h
        · exact Or.inr ⟨hnw u h, (hpopvis u hu).1⟩
        · rcases List.mem_singleton.mp h with rfl
          exact Or.inl rfl
      have hge : v.visitgen + 1 ≤ v3.nodeID w := by
        rcases hEK u harg w hw hwo with h | h <;> omega
      have : w ∈ nw ++ [n] := hinf w hwo hge
      unfold IsDone
      rw [hCnode, if_pos this]
  have hpairpop : (nw ++ [n]).Pairwise
      (fun a b => v3.nodeID b < v3.nodeID a) := by
    have h1 : v3.stack = (nw ++ [n]) ++ v.stack := by
      rw [hst3]
      simp
    exact List.Pairwise.sublist
      (h1 ▸ List.sublist_append_left (nw ++ [n]) v.stack) hI23.stack_sorted
  have hnodup : (nw ++ [n]).Nodup := pairwise_nodup hpairpop
  have hnodup' : (n :: nw.reverse).Nodup := by
    have : (nw ++ [n]).reverse.Nodup := List.nodup_reverse.mpr hnodup
    simpa using this
  have hmemnew : ∀ m, m ∈ n :: nw.reverse ↔ m ∈ nw ++ [n] := by
    intro m
    constructor
    · intro h
      rcases List.mem_cons.mp h with rfl | h'
      · exact List.mem_append.mpr (Or.inr (List.mem_singleton.mpr rfl))
      · exact List.mem_append.mpr (Or.inl (List.mem_reverse.mp h'))
    · intro h
      rcases List.mem_append.mp h with h' | h'
      · exact List.mem_cons_of_mem _ (List.mem_reverse.mpr h')
      · rcases List.mem_singleton.mp h' with rfl
        exact List.mem_cons_self _ _
  -- conversions between path conditions
  have hconv1 : ∀ x, Opn v3 x ∧ v.visitgen + 1 < v3.nodeID x →
      x ∈ n :: nw.reverse := by
    intro x ⟨hx1, hx2⟩
    exact (hmemnew x).mpr (hinf x hx1 (by omega))
  have hconv2 : ∀ x, x ∈ nw.reverse → Cmp v3 (n :: A) x := by
    intro x hx
    have hx' := List.mem_reverse.mp hx
    exact ⟨(hpopvis x (List.mem_append.mpr (Or.inl hx'))).1,
      hnotinA x (hnw x hx')⟩
  have hself3 : mnf = v.visitgen + 1 → CPath g (Cmp v3 (n :: A)) n n := by
    intro hm
    rcases hwit3 with h | ⟨w, hw, hwid, hwp⟩
    · omega
    · have : w = n := hI23.id_inj hw hOpn3 (by omega)
      exact this ▸ hwp
  have hcyc_new : mnf = v.visitgen + 1 →
      CPath g (fun m => m ∈ n :: nw.reverse) n n := by
    intro hm
    have hp := pathMembers hI23 hEK hP hid3 hOpn3 hr_ge n n (Or.inl rfl)
      (hself3 hm) hOpn3
    exact hp.mono hconv1
  have hcyc_back : CPath g (fun m => m ∈ n :: nw.reverse) n n →
      mnf = v.visitgen + 1 := by
    intro hp
    rcases strip_cycle n n hp rfl with h | h <;>
    · have hcp : CPath g (Cmp v3 (n :: A)) n n := h.mono hconv2
      have := walkW hI23 hEK hP hid3 hOpn3 n n (Or.inl rfl) hcp hOpn3
      rw [hid3] at this
      omega
  -- the new component and location bookkeeping in `out`
  refine ⟨⟨?_, ?_, ?_, ?_, ?_, ?_, ?_, ?_, ?_, ?_, ?_, ?_, ?_, ?_, ?_, ?_⟩,
    ?_, ?_⟩
  · -- tier1
    refine ⟨?_, ?_, ?_⟩
    · rw [hCvg, hI23.tier1.vg_eq]
      congr 1
      apply cntV_congr
      intro m _
      unfold Visited at hCvis
      exact hCvis m
    · intro m hm
      exact hI23.tier1.lt_n m ((hCvis m).mpr hm)
    · intro m hm
      rw [hCstack] at hm
      have hv : Visited v m := hI2.tier1.stack_vis m hm
      have := hprenotpop m hv
      unfold Visited
      rw [hCnode, if_neg this]
      exact hA0.vis_mono hv
  · -- stack_mem
    intro m
    rw [hCstack]
    constructor
    · intro hm
      have hov : Opn v m := (hI2.stack_mem m).mp hm
      have hnp := hprenotpop m hov.1
      have hu : (closeF v3 n (v.visitgen + 1) mnf).nodeID m = v.nodeID m := by
        rw [hCnode, if_neg hnp]
        exact hA0.untouched m hov.1
      exact ⟨by unfold Visited; rw [hu]; exact hov.1,
        by unfold IsDone; rw [hu]; exact hov.2⟩
    · intro hm
      have hnp : m ∉ nw ++ [n] := by
        intro h
        exact hm.2 (by unfold IsDone; rw [hCnode, if_pos h])
      have hm3 : Opn v3 m := by
        refine ⟨?_, ?_⟩
        · have := hm.1
          unfold Visited at this ⊢
          rw [hCnode, if_neg hnp] at this
          exact this
        · have := hm.2
          unfold IsDone at this ⊢
          rw [hCnode, if_neg hnp] at this
          exact this
      have hms := (hI23.stack_mem m).mpr hm3
      rw [hst3] at hms
      rcases List.mem_append.mp hms with h | h
      · exact absurd (List.mem_append.mpr (Or.inl h)) hnp
      · rcases List.mem_cons.mp h with rfl | h'
        · exact absurd (List.mem_append.mpr (Or.inr (List.mem_singleton.mpr rfl))) hnp
        · exact h'
  · -- stack_sorted
    rw [hCstack]
    refine hI2.stack_sorted.imp_of_mem ?_
    intro a b ha hb hlt
    have hoa := (hI2.stack_mem a).mp ha
    have hob := (hI2.stack_mem b).mp hb
    rw [hCnode a, hCnode b, if_neg (hprenotpop a hoa.1),
      if_neg (hprenotpop b hob.1), hA0.untouched a hoa.1, hA0.untouched b hob.1]
    exact hlt
  · -- id_bound
    intro m hm
    have hnp : m ∉ nw ++ [n] := by
      intro h
      exact hm.2 (by unfold IsDone; rw [hCnode, if_pos h])
    have hm3 : Opn v3 m := by
      refine ⟨?_, ?_⟩
      · have := hm.1
        unfold Visited at this ⊢
        rw [hCnode, if_neg hnp] at this
        exact this
      · have := hm.2
        unfold IsDone at this ⊢
        rw [hCnode, if_neg hnp] at this
        exact this
    rw [hCnode, if_neg hnp, hCvg]
    exact hI23.id_bound m hm3
  · -- act_open
    intro a ha
    have hov : Opn v a := hI2.act_open a ha
    have hnp := hprenotpop a hov.1
    have hu : (closeF v3 n (v.visitgen + 1) mnf).nodeID a = v.nodeID a := by
      rw [hCnode, if_neg hnp]
      exact hA0.untouched a hov.1
    exact ⟨by unfold Visited; rw [hu]; exact hov.1,
      by unfold IsDone; rw [hu]; exact hov.2⟩
  · -- edge_closed
    intro m hm hmA e he
    have hm3 : Visited v3 m := (hCvis m).mpr hm
    have hev : Visited v3 e := by
      by_cases hmem : m ∈ nw ++ [n]
      · rcases List.mem_append.mp hmem with h | h
        · exact hI23.edge_closed m hm3 (hnotinA m (hnw m h)) e he
        · rcases List.mem_singleton.mp h with rfl
          exact hpsv3 e he
      · by_cases hmn : m = n
        · subst hmn
          exact absurd (List.mem_append.mpr (Or.inr (List.mem_singleton.mpr rfl))) hmem
        · exact hI23.edge_closed m hm3 (by
            intro h
            rcases List.mem_cons.mp h with h' | h'
            · exact hmn h'
            · exact hmA h') e he
    exact (hCvis e).mp hev
  · -- done_closed
    intro m hm e he
    by_cases hmem : m ∈ nw ++ [n]
    · exact hsucc_done m hmem e he
    · have hm3 : IsDone v3 m := by
        unfold IsDone at hm ⊢
        rw [hCnode, if_neg hmem] at hm
        exact hm
      have := hI23.done_closed m hm3 e he
      unfold IsDone
      rw [hCnode]
      split
      · rfl
      · exact this
  · -- out_count
    intro m
    rw [hCout, outFlat_append, outFlat_single, List.count_append]
    by_cases hmem : m ∈ nw ++ [n]
    · have h3 : ¬ v3.nodeID m = sentinel := (hpopvis m hmem).2
      rw [hI23.out_count m, if_neg h3]
      have hm1 : (n :: nw.reverse).count m = 1 :=
        List.count_eq_one_of_mem hnodup' ((hmemnew m).mpr hmem)
      rw [hm1, if_pos (by rw [hCnode, if_pos hmem])]
    · have heq : (closeF v3 n (v.visitgen + 1) mnf).nodeID m = v3.nodeID m := by
        rw [hCnode, if_neg hmem]
      have hm0 : (n :: nw.reverse).count m = 0 :=
        List.count_eq_zero.mpr (fun h => hmem ((hmemnew m).mp h))
      rw [hm0, hI23.out_count m, heq]
      omega
  · -- out_head
    intro c hc
    rw [hCout] at hc
    rcases List.mem_append.mp hc with h | h
    · exact hI23.out_head c h
    · rcases List.mem_singleton.mp h with rfl
      exact ⟨by simp, hcond.2⟩
  · -- out_order
    intro o1 c o2 hdec u hu w hw
    rw [hCout] at hdec
    rcases List.eq_nil_or_concat o2 with rfl | ⟨o2', last, rfl⟩
    · have h1 : o1 ++ [c] = v3.out ++ [(n :: nw.reverse, decide (mnf = v.visitgen + 1))] := by
        rw [← hdec]
      obtain ⟨ho1, hoc⟩ := List.append_inj' h1 rfl
      obtain rfl := List.singleton_inj.mp hoc
      subst ho1
      -- the newly emitted component
      have hud : u ∈ nw ++ [n] := (hmemnew u).mp hu
      have hwd := hsucc_done u hud w hw
      have hcnt := hI23.out_count w
      rw [mem_outFlat]
      by_cases hw3 : v3.nodeID w = sentinel
      · rw [if_pos hw3] at hcnt
        have : w ∈ outFlat v3.out := by
          have : 0 < (outFlat v3.out).count w := by omega
          exact List.count_pos_iff.mp this
        obtain ⟨c', hc', hwc'⟩ := mem_outFlat.mp this
        exact ⟨c', List.mem_append.mpr (Or.inl hc'), hwc'⟩
      · have hwo : w ∈ nw ++ [n] := by
          unfold IsDone at hwd
          rw [hCnode] at hwd
          by_contra hcon
          rw [if_neg hcon] at hwd
          exact hw3 hwd
        exact ⟨(n :: nw.reverse, decide (mnf = v.visitgen + 1)),
          List.mem_append.mpr (Or.inr (List.mem_singleton.mpr rfl)),
          (hmemnew w).mpr hwo⟩
    · rw [List.concat_eq_append] at hdec
      have h2 : o1 ++ c :: (o2' ++ [last]) = (o1 ++ c :: o2') ++ [last] := by
        simp
      have h1 : (o1 ++ c :: o2') ++ [last] =
          v3.out ++ [(n :: nw.reverse, decide (mnf = v.visitgen + 1))] :=
        (hdec.trans h2).symm
      obtain ⟨ho1, -⟩ := List.append_inj' h1 rfl
      exact hI23.out_order o1 c o2' ho1.symm u hu w hw
  · -- out_rec
    intro c hc
    rw [hCout] at hc
    rcases List.mem_append.mp hc with h | h
    · exact hI23.out_rec c h
    · rcases List.mem_singleton.mp h with rfl
      show decide (mnf = v.visitgen + 1) = true ↔
        CPath g (fun m => m ∈ n :: nw.reverse) n n
      constructor
      · intro hd
        exact hcyc_new (of_decide_eq_true hd)
      · intro hp
        exact decide_eq_true (hcyc_back hp)
  · -- out_scc
    intro hcf c hc
    rw [hCout] at hc
    rcases List.mem_append.mp hc with h | h
    · exact hI23.out_scc hcf c h
    · rcases List.mem_singleton.mp h with rfl
      -- component {n} ∪ nw: mutual reachability through members
      have htom : ∀ m ∈ nw, CPath g (fun x => x ∈ n :: nw.reverse) n m := by
        intro m hm
        have hmo : Opn v3 m := hpopvis m (List.mem_append.mpr (Or.inl hm))
        have hp := (hnp3 m (hnw m hm) hmo).1
        exact (pathMembers hI23 hEK hP hid3 hOpn3 hr_ge n m (Or.inl rfl)
          hp hmo).mono hconv1
      have hdesc : ∀ k m, v3.nodeID m = k → Opn v3 m →
          v.visitgen + 1 ≤ v3.nodeID m →
          m = n ∨ CPath g (fun x => x ∈ n :: nw.reverse) m n := by
        intro k
        induction k using Nat.strong_induction_on with
        | _ k IHd =>
            intro m hk hm hge
            by_cases hmn : m = n
            · exact Or.inl hmn
            · right
              have hbig : v.visitgen + 1 < v3.nodeID m := by
                rcases Nat.lt_or_ge (v.visitgen + 1) (v3.nodeID m) with h | h
                · exact h
                · exfalso
                  exact hmn (hI23.id_inj hm hOpn3 (by omega))
              have hmnw : m ∈ nw := by
                have := hinf m hm hge
                rcases List.mem_append.mp this with h | h
                · exact h
                · exact absurd (List.mem_singleton.mp h) hmn
              have hPm : ¬ Visited (pushF v n) m ∧ Visited v3 m :=
                ⟨hnw m hmnw, hm.1⟩
              obtain ⟨w, hwo, hwlt, hwp⟩ :=
                hI23.witR m hm (hnotinA m hPm.1) (hcf m)
              have hwge : v.visitgen + 1 ≤ v3.nodeID w := by
                rcases walkW hI23 hEK hP hid3 hOpn3 m w (Or.inr hPm) hwp hwo
                  with h | h | h <;> omega
              have hpath1 : CPath g (fun x => x ∈ n :: nw.reverse) m w :=
                (pathMembers hI23 hEK hP hid3 hOpn3 hr_ge m w (Or.inr hPm)
                  hwp hwo).mono hconv1
              rcases IHd (v3.nodeID w) (by omega) w rfl hwo hwge with rfl | hWp
              · exact hpath1
              · have hwmem : w ∈ n :: nw.reverse := by
                  by_cases hwn : w = n
                  · exact hwn ▸ List.mem_cons_self _ _
                  · have := hinf w hwo hwge
                    rcases List.mem_append.mp this with h | h
                    · exact List.mem_cons_of_mem _ (List.mem_reverse.mpr h)
                    · exact absurd (List.mem_singleton.mp h) hwn
                exact hpath1.append hwmem hWp
      intro a ha b hb
      have hmema : a = n ∨ a ∈ nw := by
        rcases List.mem_cons.mp ha with rfl | h
        · exact Or.inl rfl
        · exact Or.inr (List.mem_reverse.mp h)
      have hmemb : b = n ∨ b ∈ nw := by
        rcases List.mem_cons.mp hb with rfl | h
        · exact Or.inl rfl
        · exact Or.inr (List.mem_reverse.mp h)
      rcases hmema with rfl | hanw
      · rcases hmemb with rfl | hbnw
        · exact Or.inl rfl
        · exact Or.inr (htom b hbnw)
      · have hao : Opn v3 a := hpopvis a (List.mem_append.mpr (Or.inl hanw))
        have han : CPath g (fun x => x ∈ n :: nw.reverse) a n := by
          rcases hdesc (v3.nodeID a) a rfl hao
            (hinf' a (List.mem_append.mpr (Or.inl hanw))) with rfl | h
          · exact absurd hanw hnnw
          · exact h
        rcases hmemb with rfl | hbnw
        · exact Or.inr han
        · exact Or.inr (han.append (List.mem_cons_self _ _) (htom b hbnw))
  · -- witR
    intro m hm hmA hmc
    have hnp : m ∉ nw ++ [n] := by
      intro h
      exact hm.2 (by unfold IsDone; rw [hCnode, if_pos h])
    have hmid : (closeF v3 n (v.visitgen + 1) mnf).nodeID m = v3.nodeID m := by
      rw [hCnode, if_neg hnp]
    have hm3 : Opn v3 m :=
      ⟨by have := hm.1; unfold Visited at this ⊢; rw [hmid] at this; exact this,
       by have := hm.2; unfold IsDone at this ⊢; rw [hmid] at this; exact this⟩
    have hms := (hI23.stack_mem m).mpr hm3
    rw [hst3] at hms
    have hmv : Opn v m := by
      rcases List.mem_append.mp hms with h | h
      · exact absurd (List.mem_append.mpr (Or.inl h)) hnp
      · rcases List.mem_cons.mp h with rfl | h'
        · exact absurd (List.mem_append.mpr
            (Or.inr (List.mem_singleton.mpr rfl))) hnp
        · exact (hI2.stack_mem m).mp h'
    obtain ⟨w, hwo, hwlt, hwp⟩ := hI2.witR m hmv hmA hmc
    have hwnp := hprenotpop w hwo.1
    have hwid : (closeF v3 n (v.visitgen + 1) mnf).nodeID w = v.nodeID w := by
      rw [hCnode, if_neg hwnp]
      exact hA0.untouched w hwo.1
    refine ⟨w, ⟨?_, ?_⟩, ?_, ?_⟩
    · unfold Visited
      rw [hwid]
      exact hwo.1
    · unfold IsDone
      rw [hwid]
      exact hwo.2
    · rw [hwid, hmid, hA0.untouched m hmv.1]
      exact hwlt
    · refine hwp.mono ?_
      intro x hx
      refine ⟨?_, hx.2⟩
      have := hA0.vis_mono hx.1
      exact (hCvis x).mp this
  · -- act_sorted
    refine hI2.act_sorted.imp_of_mem ?_
    intro a b ha hb hlt
    have hoa := hI2.act_open a ha
    have hob := hI2.act_open b hb
    rw [hCnode a, hCnode b, if_neg (hprenotpop a hoa.1),
      if_neg (hprenotpop b hob.1), hA0.untouched a hoa.1,
      hA0.untouched b hob.1]
    exact hlt
  · -- ic
    intro c hc hoc
    have hnp : c ∉ nw ++ [n] := by
      intro h
      exact hoc.2 (by unfold IsDone; rw [hCnode, if_pos h])
    have hmid : (closeF v3 n (v.visitgen + 1) mnf).nodeID c = v3.nodeID c := by
      rw [hCnode, if_neg hnp]
    have hoc3 : Opn v3 c :=
      ⟨by have := hoc.1; unfold Visited at this ⊢; rw [hmid] at this; exact this,
       by have := hoc.2; unfold IsDone at this ⊢; rw [hmid] at this; exact this⟩
    obtain ⟨p, hpe, hop3, hplt, hpcond⟩ := hI23.ic c hc hoc3
    have hcid : v3.nodeID c < v.visitgen + 1 := by
      by_contra hge
      exact hnp (hinf c hoc3 (by omega))
    have hpnp : p ∉ nw ++ [n] := by
      intro h
      have := hinf' p h
      omega
    have hpmid : (closeF v3 n (v.visitgen + 1) mnf).nodeID p = v3.nodeID p := by
      rw [hCnode, if_neg hpnp]
    refine ⟨p, hpe, ⟨?_, ?_⟩, ?_, ?_⟩
    · unfold Visited
      rw [hpmid]
      exact hop3.1
    · unfold IsDone
      rw [hpmid]
      exact hop3.2
    · rw [hpmid, hmid]
      exact hplt
    · intro a ha hlt
      have hoa := hI2.act_open a ha
      have hanp : a ∉ nw ++ [n] := hprenotpop a hoa.1
      have hamid : (closeF v3 n (v.visitgen + 1) mnf).nodeID a =
          v3.nodeID a := by
        rw [hCnode, if_neg hanp]
      rw [hpmid, hamid] at hlt
      rw [hmid, hamid]
      exact hpcond a (List.mem_cons_of_mem _ ha) hlt
  · -- out_parent
    intro hsp K hK c hc hcl2 p hpe
    rw [hCout] at hK
    rcases List.mem_append.mp hK with h | h
    · exact hI23.out_parent hsp K h c hc hcl2 p hpe
    · rcases List.mem_singleton.mp h with rfl
      have hcd : c ∈ nw ++ [n] := (hmemnew c).mp hc
      have hoc3 : Opn v3 c := hpopvis c hcd
      obtain ⟨p0, hp0e, hop0, hp0lt, hp0cond⟩ := hI23.ic c hcl2 hoc3
      obtain rfl : p = p0 := hsp c p p0 hcl2 hpe hp0e
      have hp0ge : v.visitgen + 1 ≤ v3.nodeID p := by
        by_contra hlt2
        push_neg at hlt2
        have hcond2 := hp0cond n (List.mem_cons_self _ _) (by rw [hid3]; omega)
        have hcge := hinf' c hcd
        have hceq : v3.nodeID c = v3.nodeID n := by
          rw [hid3]
          omega
        have hceqn : c = n := hI23.id_inj hoc3 hOpn3 hceq
        subst hceqn
        rw [hcond.2] at hcl2
        exact Bool.noConfusion hcl2
      have hp0mem : p ∈ nw ++ [n] := hinf p hop0 hp0ge
      exact (hmemnew p).mpr hp0mem
  · -- AOut v v'
    refine ⟨?_, ⟨[], by rw [hCstack]; simp⟩, ?_, ?_⟩
    · intro m hm
      rw [hCnode, if_neg (hprenotpop m hm)]
      exact hA0.untouched m hm
    · rw [hCvg]
      exact hA0.vg_le
    · obtain ⟨d, hd⟩ := hA0.out_ext
      exact ⟨d ++ [(n :: nw.reverse, decide (mnf = v.visitgen + 1))],
        by rw [hCout, hd, List.append_assoc]⟩
  · -- FOut
    have hdonen : IsDone (closeF v3 n (v.visitgen + 1) mnf) n := by
      unfold IsDone
      rw [hCnode, if_pos (List.mem_append.mpr (Or.inr (List.mem_singleton.mpr rfl)))]
    have hOpnBack : ∀ m, Opn (closeF v3 n (v.visitgen + 1) mnf) m →
        m ∉ nw ++ [n] ∧ Opn v3 m ∧
        (closeF v3 n (v.visitgen + 1) mnf).nodeID m = v3.nodeID m := by
      intro m hm
      have hnp : m ∉ nw ++ [n] := by
        intro h
        exact hm.2 (by unfold IsDone; rw [hCnode, if_pos h])
      have hmid : (closeF v3 n (v.visitgen + 1) mnf).nodeID m = v3.nodeID m := by
        rw [hCnode, if_neg hnp]
      refine ⟨hnp, ⟨?_, ?_⟩, hmid⟩
      · have := hm.1
        unfold Visited at this ⊢
        rw [hmid] at this
        exact this
      · have := hm.2
        unfold IsDone at this ⊢
        rw [hmid] at this
        exact this
    refine ⟨hmnf_le, ?_, ?_, ?_, ?_, ?_, ?_, ?_, ?_⟩
    · unfold Visited IsDone at *
      rw [hdonen]
      exact sentinel_ne_zero
    · intro m hm0 hmn hmo
      exfalso
      obtain ⟨hnp, hm3, -⟩ := hOpnBack m hmo
      have hmp : ¬ Visited (pushF v n) m := by
        unfold Visited
        rw [pushF_other v hmn]
        exact fun h => hm0 h
      have := (hnp3 m hmp hm3).2
      exact hnp (hinf m hm3 (by omega))
    · intro m hm0 hmn hmo
      exfalso
      obtain ⟨hnp, hm3, -⟩ := hOpnBack m hmo
      have hmp : ¬ Visited (pushF v n) m := by
        unfold Visited
        rw [pushF_other v hmn]
        exact fun h => hm0 h
      have := (hnp3 m hmp hm3).2
      exact hnp (hinf m hm3 (by omega))
    · intro hlt
      omega
    · intro hmeq
      refine (hself3 hmeq).mono ?_
      intro x hx
      refine ⟨(hCvis x).mp hx.1, ?_⟩
      intro hxa
      exact hx.2 (List.mem_cons_of_mem _ hxa)
    · intro u hu w hw hwo
      obtain ⟨hnp, hw3, hwid⟩ := hOpnBack w hwo
      have harg : u = n ∨ (¬ Visited (pushF v n) u ∧ Visited v3 u) := by
        rcases hu with rfl | ⟨hu1, hu2⟩
        · exact Or.inl rfl
        · by_cases hun : u = n
          · exact Or.inl hun
          · refine Or.inr ⟨?_, (hCvis u).mpr hu2⟩
            unfold Visited
            rw [pushF_other v hun]
            exact fun h => hu1 h
      rcases hEK u harg w hw hw3 with h | h
      · exact Or.inl (by rw [hwid]; exact h)
      · exact Or.inr (by rw [hwid]; exact h)
    · intro hnd
      exact absurd hdonen hnd
    · intro _
      refine ⟨hcond.1, hcond.2, hCstack, ?_⟩
      obtain ⟨d, hd⟩ := hAO3.out_ext
      refine ⟨d, nw.reverse, ?_, ?_⟩
      · rw [hCout, hd]
        rfl
      · intro x hx
        have hx' := List.mem_reverse.mp hx
        constructor
        · intro hv
          exact hnw x hx' (hApush.vis_mono hv)
        · unfold IsDone
          rw [hCnode, if_pos (List.mem_append.mpr (Or.inl hx'))]

/-- The Tier-2 postcondition of `visit`: the run invariant is preserved for
the caller's active chain, a memoized call is the identity, and a fresh
call satisfies `FOut`. -/
theorem visitB {g : Graph} (hNo : NoOv g) (hWF : WF g) :
    ∀ fuel A v n r v', Inv2 g A v → n < g.n →
      (g.closure n = true →
        ∃ p, n ∈ g.succ p ∧ p ∈ A ∧ ∀ a ∈ A, v.nodeID a ≤ v.nodeID p) →
      visit g fuel v n = some (r, v') →
      Inv2 g A v' ∧ AOut v v' ∧ (Visited v n → v' = v ∧ r = v.nodeID n) ∧
      (¬ Visited v n → FOut g A v n r v') := by
  intro fuel
  induction fuel with
  | zero =>
      intro A v n r v' _ _ _ h
      exact absurd h (by simp [visit_zero])
  | succ fuel IH =>
      intro A v n r v' hI2 hn hcall hEq
      obtain ⟨hT', hA', hVn', hR'⟩ :=
        visitA hNo hWF (fuel + 1) v n r v' hI2.tier1 hn hEq
      by_cases h0 : 0 < v.nodeID n
      · rw [visit_visited h0] at hEq
        obtain ⟨h1, h2⟩ := Prod.mk.injEq .. ▸ Option.some.inj hEq
        subst h2
        exact ⟨hI2, AOut.refl v, fun _ => ⟨rfl, h1.symm⟩,
          fun hnv => absurd (by unfold Visited; omega) hnv⟩
      · have h0' : v.nodeID n = 0 := by omega
        rw [visit_fresh h0'] at hEq
        have hW : W = 4294967296 := rfl
        have hcnt : cntV g v ≤ g.n := cntV_le g v
        have hvg : v.visitgen = 2 * cntV g v := hI2.tier1.vg_eq
        have hNo' : 2 * g.n + 2 < W := hNo
        have hm1 : (v.visitgen + 1) % W = v.visitgen + 1 :=
          Nat.mod_eq_of_lt (by omega)
        have hm2' : (v.visitgen + 1 + 1) % W = v.visitgen + 2 :=
          Nat.mod_eq_of_lt (by omega)
        rw [hm1, hm2'] at hEq
        have hIp2 : Inv2 g (n :: A) (pushF v n) :=
          Inv2_pushF hNo hI2 hn h0' hcall
        have hOpnP : Opn (pushF v n) n :=
          hIp2.act_open n (List.mem_cons_self _ _)
        cases hfold : edgeFold (visit g fuel) (pushF v n) (g.succ n)
            (v.visitgen + 2) with
        | none => rw [hfold] at hEq; exact absurd hEq (by simp)
        | some p =>
            obtain ⟨mnf, v3⟩ := p
            rw [hfold] at hEq
            simp only at hEq
            have hvg0 : v.visitgen + 1 < (pushF v n).visitgen := by
              rw [pushF_vg hNo hI2.tier1]
              omega
            have hbundle := foldB hNo hWF IH hn hvg0
              (g.succ n) [] (pushF v n) (v.visitgen + 2) mnf v3
              (fun e he => ⟨he, hWF n hn e he⟩) hIp2 (AOut.refl _) hOpnP
              (by omega) (Or.inl (by omega))
              (fun m hm0 hm1 => absurd hm1.1 hm0)
              (fun x hx0 hx1 => absurd hx1 hx0)
              (fun e he => absurd he (List.not_mem_nil e))
              (fun e he => absurd he (List.not_mem_nil e))
              hfold
            simp only [List.nil_append] at hbundle
            obtain ⟨hI23, hAO3, hOpn3, hmnf_le, hwit3, hnp3, hen3, hpsv3, hpse3⟩ :=
              hbundle
            have hvisPn : Visited (pushF v n) n := hOpnP.1
            have hid3 : v3.nodeID n = v.visitgen + 1 := by
              rw [hAO3.untouched n hvisPn, pushF_id hNo hI2.tier1]
            obtain ⟨nw, hst3, hnw⟩ := hAO3.stack_ext
            have hst3' : v3.stack = nw ++ n :: v.stack := hst3
            have hmnf_le' : mnf ≤ v.visitgen + 2 := by
              have := hmnf_le
              omega
            by_cases hcond :
                (mnf = v.visitgen + 1 ∨ mnf = v.visitgen + 2) ∧
                  g.closure n = false
            · rw [if_pos hcond] at hEq
              obtain ⟨h1, h2⟩ := Prod.mk.injEq .. ▸ Option.some.inj hEq
              subst h1 h2
              obtain ⟨hI2', hAc, hFc⟩ := closeB hNo hI2 hn h0' hI23 hAO3
                hOpn3 hst3' hnw hmnf_le'
                (by
                  rcases hwit3 with h | h
                  · exact Or.inl (by omega)
                  · exact Or.inr h)
                hnp3 hen3 hpsv3 hpse3 hcond
              exact ⟨hI2', hAc, fun hv => absurd hv (fun h => h h0'),
                fun _ => hFc⟩
            · rw [if_neg hcond] at hEq
              obtain ⟨h1, h2⟩ := Prod.mk.injEq .. ▸ Option.some.inj hEq
              subst h1 h2
              have hCmpMono : ∀ x, Cmp v3 (n :: A) x → Cmp v3 A x := by
                intro x hx
                exact ⟨hx.1, fun h => hx.2 (List.mem_cons_of_mem _ h)⟩
              have hfreshP : ∀ m, ¬ Visited v m → m ≠ n →
                  ¬ Visited (pushF v n) m := by
                intro m hm0 hmn hv
                refine hm0 ?_
                unfold Visited at hv ⊢
                rw [pushF_other v hmn] at hv
                exact hv
              refine ⟨?_, hA', fun hv => absurd hv (fun h => h h0'), ?_⟩
              · -- demote the invariant from n :: A to A
                refine ⟨hI23.tier1, hI23.stack_mem, hI23.stack_sorted,
                  hI23.id_bound, ?_, ?_, hI23.done_closed, hI23.out_count,
                  hI23.out_head, hI23.out_order, hI23.out_rec, hI23.out_scc,
                  ?_, (List.pairwise_cons.mp hI23.act_sorted).2, ?_,
                  hI23.out_parent⟩
                · intro a ha
                  exact hI23.act_open a (List.mem_cons_of_mem _ ha)
                · intro m hm hmA e he
                  by_cases hmn : m = n
                  · subst hmn
                    exact hpsv3 e he
                  · refine hI23.edge_closed m hm ?_ e he
                    intro h
                    rcases List.mem_cons.mp h with h' | h'
                    · exact hmn h'
                    · exact hmA h'
                · intro m hm hmA hmc
                  by_cases hmn : m = n
                  · subst hmn
                    have hnc : ¬ (mnf = v.visitgen + 1 ∨ mnf = v.visitgen + 2) :=
                      fun h => hcond ⟨h, hmc⟩
                    have hlt : mnf < v.visitgen + 1 := by omega
                    rcases hwit3 with h | ⟨w, hwo, hwid, hwp⟩
                    · omega
                    · exact ⟨w, hwo, by rw [hid3]; omega, hwp.mono hCmpMono⟩
                  · obtain ⟨w, hwo, hwlt, hwp⟩ := hI23.witR m hm
                      (by
                        intro h
                        rcases List.mem_cons.mp h with h' | h'
                        · exact hmn h'
                        · exact hmA h') hmc
                    exact ⟨w, hwo, hwlt, hwp.mono hCmpMono⟩
                · intro c hc hoc
                  obtain ⟨p, hpe, hop, hplt, hpcond⟩ := hI23.ic c hc hoc
                  exact ⟨p, hpe, hop, hplt,
                    fun a ha hlt => hpcond a (List.mem_cons_of_mem _ ha) hlt⟩
              · intro _
                refine ⟨by omega, hOpn3.1, ?_, ?_, ?_, ?_, ?_, ?_, ?_⟩
                · intro m hm0 hmn hmo
                  have := (hnp3 m (hfreshP m hm0 hmn) hmo).2
                  omega
                · intro m hm0 hmn hmo
                  exact ((hnp3 m (hfreshP m hm0 hmn) hmo).1).mono hCmpMono
                · intro hlt
                  rcases hwit3 with h | ⟨w, hwo, hwid, hwp⟩
                  · omega
                  · exact ⟨w, hwo, hwid, hwp.mono hCmpMono⟩
                · intro hmeq
                  rcases hwit3 with h | ⟨w, hwo, hwid, hwp⟩
                  · omega
                  · have : w = n :=
                      hI23.id_inj hwo hOpn3 (by rw [hid3]; omega)
                    subst this
                    exact hwp.mono hCmpMono
                · intro u hu w hw hwo
                  rcases hu with rfl | ⟨hu1, hu2⟩
                  · exact hpse3 w hw hwo
                  · by_cases hun : u = n
                    · subst hun
                      exact hpse3 w hw hwo
                    · exact hen3 u (hfreshP u hu1 hun) hu2 w hw hwo
                · intro _
                  exact ⟨hid3, hcond⟩
                · intro hd
                  exact absurd hd hOpn3.2

/-! ### The root loop, Tier 2 -/

/-- A fresh top-level visit of a non-closure root with empty stack always
closes its own component: the final `min` is `id` or `id + 1`, the root is
finalized, the stack is empty again, and the last component emitted during
the call is headed by the root. -/
theorem rootStep {g : Graph} (hNo : NoOv g) (hWF : WF g) {fuel : Nat}
    {v : Visitor} {n r : Nat} {v' : Visitor} (hI2 : Inv2 g [] v)
    (hst : v.stack = []) (hn : n < g.n) (hcl : g.closure n = false)
    (hfresh : ¬ Visited v n) (hEq : visit g fuel v n = some (r, v')) :
    (r = v.visitgen + 1 ∨ r = v.visitgen + 2) ∧ IsDone v' n ∧
    v'.stack = [] ∧
    ∃ d tl, v'.out = v.out ++ d ++ [(n :: tl, decide (r = v.visitgen + 1))] ∧
      (∀ x ∈ tl, ¬ Visited v x ∧ IsDone v' x) := by
  obtain ⟨hI2', hA', -, hF⟩ := visitB hNo hWF fuel [] v n r v' hI2 hn
    (fun h => absurd (hcl.symm.trans h) (by decide)) hEq
  have hF' := hF hfresh
  have hdone : IsDone v' n := by
    by_contra hnd
    obtain ⟨hid, hnc⟩ := hF'.fate_open hnd
    have hne : ¬ (r = v.visitgen + 1 ∨ r = v.visitgen + 2) :=
      fun h => hnc ⟨h, hcl⟩
    have hlt : r < v.visitgen + 1 := by
      have := hF'.r_le
      omega
    obtain ⟨w, hwo, hwid, -⟩ := hF'.wit hlt
    by_cases hwv : Visited v w
    · obtain ⟨hwvo, -⟩ := hA'.opn_back hwo hwv
      have := (hI2.stack_mem w).mpr hwvo
      rw [hst] at this
      exact absurd this (List.not_mem_nil w)
    · by_cases hwn : w = n
      · subst hwn
        rw [hid] at hwid
        omega
      · have := hF'.new_open_big w hwv hwn hwo
        omega
  obtain ⟨hr, -, hstk, d, tl, hout, htl⟩ := hF'.fate_done hdone
  exact ⟨hr, hdone, by rw [hstk, hst], d, tl, hout, htl⟩

theorem runRootsB {g : Graph} (hNo : NoOv g) (hWF : WF g) :
    ∀ rs fuel v v', Inv2 g [] v → v.stack = [] → (∀ x ∈ rs, x < g.n) →
      runRoots g fuel v rs = some v' → Inv2 g [] v' ∧ v'.stack = [] := by
  intro rs
  induction rs with
  | nil =>
      intro fuel v v' hI2 hst _ hEq
      obtain rfl : v = v' := Option.some.inj hEq
      exact ⟨hI2, hst⟩
  | cons x rs ih =>
      intro fuel v v' hI2 hst hlt hEq
      unfold runRoots at hEq
      by_cases hx : g.closure x = false
      · rw [if_pos hx] at hEq
        cases hv : visit g fuel v x with
        | none => rw [hv] at hEq; exact absurd hEq (by simp)
        | some p =>
            obtain ⟨r1, v1⟩ := p
            rw [hv] at hEq
            simp only at hEq
            obtain ⟨hI21, -, hmemo, -⟩ :=
              visitB hNo hWF fuel [] v x r1 v1 hI2 (hlt x (by simp))
                (fun h => absurd (hx.symm.trans h) (by decide)) hv
            have hst1 : v1.stack = [] := by
              by_cases hvx : Visited v x
              · obtain ⟨rfl, -⟩ := hmemo hvx
                exact hst
              · exact (rootStep hNo hWF hI2 hst (hlt x (by simp)) hx hvx hv).2.2.1
            exact ih fuel v1 v' hI21 hst1
              (fun y hy => hlt y (List.mem_cons_of_mem _ hy)) hEq
      · rw [if_neg hx] at hEq
        exact ih fuel v v' hI2 hst
          (fun y hy => hlt y (List.mem_cons_of_mem _ hy)) hEq

/-- Final-state facts of a complete run: the invariant with no active
frames, an empty stack, and every visited node finalized. -/
theorem finalState {g : Graph} (hNo : NoOv g) (hWF : WF g) {fuel : Nat}
    {roots : List Nat} {v' : Visitor} (hroots : ∀ x ∈ roots, x < g.n)
    (hEq : visitBottomUp g fuel roots = some v') :
    Inv2 g [] v' ∧ v'.stack = [] ∧ (∀ m, Visited v' m → IsDone v' m) ∧
    (∀ m, RootReach g roots m → IsDone v' m) := by
  obtain ⟨hI2', hst'⟩ := runRootsB hNo hWF roots fuel initV v'
    (Inv2_init g) rfl hroots hEq
  obtain ⟨-, -, hV', -⟩ := runRootsA hNo hWF roots fuel initV v'
    (InvT_init g) hroots hEq
  have hvd : ∀ m, Visited v' m → IsDone v' m := by
    intro m hm
    by_contra hnd
    have := (hI2'.stack_mem m).mpr ⟨hm, hnd⟩
    rw [hst'] at this
    exact absurd this (List.not_mem_nil m)
  refine ⟨hI2', hst', hvd, ?_⟩
  intro m ⟨x, hx, hxc, hr⟩
  have hxv : Visited v' x := hV' x hx hxc
  have hmv : Visited v' m := by
    clear hvd
    induction hr with
    | refl => exact hxv
    | tail _ he ih => exact hI2'.edge_closed _ ih (List.not_mem_nil _) _ he
  exact hvd m hmv

/-! ### Facts about the finished component sequence -/

theorem mem_outFlat_prefix {o1 : List (List Nat × Bool)} {cy : List Nat × Bool}
    {p1 p2 : List (List Nat × Bool)} {c : List Nat × Bool} {x : Nat}
    (h : o1 = p1 ++ cy :: p2) (hx : x ∈ outFlat (p1 ++ [cy])) :
    x ∈ outFlat (o1 ++ [c]) := by
  obtain ⟨cc, hcc, hxc⟩ := mem_outFlat.mp hx
  refine mem_outFlat.mpr ⟨cc, ?_, hxc⟩
  rcases List.mem_append.mp hcc with h' | h'
  · exact List.mem_append.mpr (Or.inl (h ▸ List.mem_append.mpr (Or.inl h')))
  · rcases List.mem_singleton.mp h' with rfl
    exact List.mem_append.mpr
      (Or.inl (h ▸ List.mem_append.mpr (Or.inr (List.mem_cons_self _ _))))

/-- Everything reachable from a member of an emitted component lies in a
component emitted no later. -/
theorem reach_prefix {g : Graph} {A : List Nat} {v' : Visitor}
    (hI2 : Inv2 g A v') (hdone : ∀ m, Visited v' m → IsDone v' m) :
    ∀ o1 c o2, v'.out = o1 ++ c :: o2 → ∀ a ∈ c.1, ∀ z, Reach g a z →
      z ∈ outFlat (o1 ++ [c]) := by
  intro o1 c o2 hdec a ha z hr
  induction hr with
  | refl =>
      exact mem_outFlat.mpr ⟨c,
        List.mem_append.mpr (Or.inr (List.mem_singleton.mpr rfl)), ha⟩
  | tail h1 he ih =>
      rename_i y z'
      obtain ⟨cy, hcy, hycy⟩ := mem_outFlat.mp ih
      rcases List.mem_append.mp hcy with h' | h'
      · obtain ⟨p1, p2, hsplit⟩ := List.append_of_mem h'
        have hdec2 : v'.out = p1 ++ cy :: (p2 ++ c :: o2) := by
          rw [hdec, hsplit]
          simp
        have := hI2.out_order p1 cy (p2 ++ c :: o2) hdec2 y hycy z' he
        exact mem_outFlat_prefix hsplit this
      · rcases List.mem_singleton.mp h' with rfl
        exact hI2.out_order o1 cy o2 hdec y hycy z' he

/-- A member of an emitted component is finalized. -/
theorem mem_out_done {g : Graph} {A : List Nat} {v' : Visitor}
    (hI2 : Inv2 g A v') {c : List Nat × Bool} (hc : c ∈ v'.out) {a : Nat}
    (ha : a ∈ c.1) : v'.nodeID a = sentinel := by
  have hcnt := hI2.out_count a
  have hmem : a ∈ outFlat v'.out := mem_outFlat.mpr ⟨c, hc, ha⟩
  have : 0 < (outFlat v'.out).count a := List.count_pos_iff.mpr hmem
  by_contra h
  rw [if_neg h] at hcnt
  omega

/-- Along finalized nodes, reachability stays finalized. -/
theorem reach_done {g : Graph} {A : List Nat} {v' : Visitor}
    (hI2 : Inv2 g A v') {a z : Nat} (hr : Reach g a z) (ha : IsDone v' a) :
    IsDone v' z := by
  induction hr with
  | refl => exact ha
  | tail _ he ih => exact hI2.done_closed _ ih _ he

/-- A node occurs in the member list of at most one position of `out`:
if it occurs in `c` at one decomposition and somewhere in a strict prefix,
the count would exceed one. -/
theorem mem_unique_comp {g : Graph} {A : List Nat} {v' : Visitor}
    (hI2 : Inv2 g A v') {o1 o2 : List (List Nat × Bool)} {c : List Nat × Bool}
    (hdec : v'.out = o1 ++ c :: o2) {a : Nat} (ha : a ∈ c.1)
    (hpre : a ∈ outFlat o1) : False := by
  have hcnt := hI2.out_count a
  rw [hdec, outFlat_append] at hcnt
  have h1 : 0 < (outFlat o1).count a := List.count_pos_iff.mpr hpre
  have h2 : 0 < (outFlat (c :: o2)).count a := by
    refine List.count_pos_iff.mpr (mem_outFlat.mpr ⟨c, List.mem_cons_self _ _, ha⟩)
  rw [List.count_append] at hcnt
  split at hcnt <;> omega

/-- Maximality: anything mutually reachable with a member of an emitted
component is itself a member. -/
theorem comp_maximal {g : Graph} {A : List Nat} {v' : Visitor}
    (hI2 : Inv2 g A v') (hdone : ∀ m, Visited v' m → IsDone v' m)
    {c : List Nat × Bool} (hc : c ∈ v'.out) {a z : Nat} (ha : a ∈ c.1)
    (h1 : Reach g a z) (h2 : Reach g z a) : z ∈ c.1 := by
  obtain ⟨o1, o2, hdec⟩ := List.append_of_mem hc
  have hz := reach_prefix hI2 hdone o1 c o2 hdec a ha z h1
  obtain ⟨cz, hcz, hzcz⟩ := mem_outFlat.mp hz
  rcases List.mem_append.mp hcz with h' | h'
  · -- z's component strictly earlier: then a would occur twice
    exfalso
    obtain ⟨p1, p2, hsplit⟩ := List.append_of_mem h'
    have hdec2 : v'.out = p1 ++ cz :: (p2 ++ c :: o2) := by
      rw [hdec, hsplit]
      simp
    have haz := reach_prefix hI2 hdone p1 cz (p2 ++ c :: o2) hdec2 z hzcz a h2
    -- a occurs in the strict prefix p1 ++ [cz] and in c
    have hpre : a ∈ outFlat (p1 ++ cz :: p2) := by
      obtain ⟨cc, hcc, hacc⟩ := mem_outFlat.mp haz
      refine mem_outFlat.mpr ⟨cc, ?_, hacc⟩
      rcases List.mem_append.mp hcc with h'' | h''
      · exact List.mem_append.mpr (Or.inl h'')
      · rcases List.mem_singleton.mp h'' with rfl
        exact List.mem_append.mpr (Or.inr (List.mem_cons_self _ _))
    exact mem_unique_comp hI2 (by rw [hdec, hsplit]) ha hpre
  · rcases List.mem_singleton.mp h' with rfl
    exact hzcz

/-! ### Small helpers for the claim layer -/

theorem headI_mem {l : List Nat} (h : l ≠ []) : l.headI ∈ l := by
  cases l with
  | nil => exact absurd rfl h
  | cons a t => exact List.mem_cons_self a t

theorem outFlat_cons (c : List Nat × Bool) (o : List (List Nat × Bool)) :
    outFlat (c :: o) = c.1 ++ outFlat o := by
  simp [outFlat]

/-- Reachability only depends on the edge sets. -/
theorem Reach_congr {g g' : Graph}
    (hsucc : ∀ i j, j ∈ g'.succ i ↔ j ∈ g.succ i) {a b : Nat}
    (h : Reach g a b) : Reach g' a b := by
  induction h with
  | refl => exact Reach.refl _
  | tail _ he ih => exact Reach.tail ih ((hsucc _ _).mpr he)

/-- Constrained paths only depend on the edge sets and the predicate's
extension. -/
theorem CPath_congr {g g' : Graph} {C D : Nat → Prop}
    (hsucc : ∀ i j, j ∈ g'.succ i ↔ j ∈ g.succ i) (hC : ∀ m, C m → D m)
    {a b : Nat} (h : CPath g C a b) : CPath g' D a b := by
  induction h with
  | single he => exact CPath.single ((hsucc _ _).mpr he)
  | cons he hy _ ih => exact CPath.cons ((hsucc _ _).mpr he) (hC _ hy) ih

theorem noOv_gMutual : NoOv gMutual := by unfold NoOv; decide

theorem wf_gMutual : WF gMutual := by unfold WF; decide

theorem noOv_gClosNoBack : NoOv gClosNoBack := by unfold NoOv; decide

theorem wf_gClosNoBack : WF gClosNoBack := by unfold WF; decide

theorem noOv_gClosBack : NoOv gClosBack := by unfold NoOv; decide

theorem wf_gClosBack : WF gClosBack := by unfold WF; decide

theorem noOv_gSelf : NoOv gSelf := by unfold NoOv; decide

theorem wf_gSelf : WF gSelf := by unfold WF; decide

theorem noOv_gDiamond : NoOv gDiamond := by unfold NoOv; decide

theorem wf_gDiamond : WF gDiamond := by unfold WF; decide

theorem noOv_gClosCycle : NoOv gClosCycle := by unfold NoOv; decide

theorem wf_gClosCycle : WF gClosCycle := by unfold WF; decide

theorem noOv_gShared : NoOv gShared := by unfold NoOv; decide

theorem wf_gShared : WF gShared := by unfold WF; decide

/-! ## The claims -/

/-- C1: in every run of `visitBottomUp`, every function reachable from the
non-closure roots (including closures reached through their enclosing
functions) is a member of exactly one component passed to `analyze` before
`visitBottomUp` returns (`v'.out` lists exactly the `analyze` invocations
of the run), and no function whatsoever appears in two emitted
components. -/
theorem C1_reachable_exactly_once {g : Graph} {fuel : Nat}
    {roots : List Nat} {v' : Visitor} (hNo : NoOv g) (hWF : WF g)
    (hroots : ∀ x ∈ roots, x < g.n)
    (hEq : visitBottomUp g fuel roots = some v') {m : Nat}
    (hm : RootReach g roots m) :
    (outFlat v'.out).count m = 1 ∧ ∀ x, (outFlat v'.out).count x ≤ 1 := by
  obtain ⟨hI2, -, -, hrr⟩ := finalState hNo hWF hroots hEq
  constructor
  · have h := hI2.out_count m
    have hd : v'.nodeID m = sentinel := hrr m hm
    rw [if_pos hd] at h
    exact h
  · intro x
    have h := hI2.out_count x
    split at h <;> omega

/-- Witness for C1 on the mutual-recursion graph: node 1, reachable from
root 0, is listed exactly once over the run's emitted components. -/
theorem C1_witness :
    ∃ u, visitBottomUp gMutual 3 [0, 1] = some u ∧
      (outFlat u.out).count 1 = 1 := by
  have hs : (visitBottomUp gMutual 3 [0, 1]).isSome := by decide
  obtain ⟨v', hv⟩ : ∃ u, visitBottomUp gMutual 3 [0, 1] = some u :=
    ⟨_, (Option.some_get hs).symm⟩
  refine ⟨v', hv, ?_⟩
  exact (C1_reachable_exactly_once noOv_gMutual wf_gMutual (by decide) hv
    ⟨0, by decide, rfl, Reach.tail (Reach.refl 0) (by decide)⟩).1

/-- C2: the `analyze` sequence is bottom-up: whenever an edge `u → w`
crosses from the component `c` (emitted after the prefix `o1`) to a node
`w` outside `c`, the component containing `w` was emitted strictly
earlier, i.e. lies in `o1`.  Closures are ordinary nodes here, so the
statement covers edges through closures. -/
theorem C2_bottom_up_order {g : Graph} {fuel : Nat} {roots : List Nat}
    {v' : Visitor} (hNo : NoOv g) (hWF : WF g)
    (hroots : ∀ x ∈ roots, x < g.n)
    (hEq : visitBottomUp g fuel roots = some v')
    {o1 o2 : List (List Nat × Bool)} {c : List Nat × Bool}
    (hdec : v'.out = o1 ++ c :: o2) {u w : Nat}
    (hu : u ∈ c.1) (hw : w ∈ g.succ u) (hwc : w ∉ c.1) :
    ∃ cw ∈ o1, w ∈ cw.1 := by
  obtain ⟨hI2, -, -, -⟩ := finalState hNo hWF hroots hEq
  obtain ⟨cw, hcw, hwcw⟩ :=
    mem_outFlat.mp (hI2.out_order o1 c o2 hdec u hu w hw)
  rcases List.mem_append.mp hcw with h | h
  · exact ⟨cw, h, hwcw⟩
  · rcases List.mem_singleton.mp h with rfl
    exact absurd hwcw hwc

/-- Witness for C2 on the diamond graph: the edge `1 → 3` crosses from
component `([1], false)` into node 3, whose component was emitted in the
prefix `[([3], false)]`. -/
theorem C2_witness :
    ∃ cw ∈ [(([3], false) : List Nat × Bool)], (3 : Nat) ∈ cw.1 := by
  have hs : (visitBottomUp gDiamond 5 [0, 1, 2, 3]).isSome := by decide
  obtain ⟨v', hv⟩ : ∃ u, visitBottomUp gDiamond 5 [0, 1, 2, 3] = some u :=
    ⟨_, (Option.some_get hs).symm⟩
  have hout : v'.out = [([3], false), ([1], false), ([2], false), ([0], false)] := by
    have h2 : runOut gDiamond 5 [0, 1, 2, 3] = some v'.out := by
      unfold runOut
      rw [hv]
      rfl
    have h3 : runOut gDiamond 5 [0, 1, 2, 3] =
        some [([3], false), ([1], false), ([2], false), ([0], false)] := by decide
    exact Option.some.inj (h2.symm.trans h3)
  have hdec : v'.out =
      [(([3], false) : List Nat × Bool)] ++
        ([1], false) :: [([2], false), ([0], false)] := by
    rw [hout]
    rfl
  exact C2_bottom_up_order noOv_gDiamond wf_gDiamond (by decide) hv hdec
    (by decide : (1 : Nat) ∈ (([1], false) : List Nat × Bool).1)
    (by decide : (3 : Nat) ∈ gDiamond.succ 1)
    (by decide : (3 : Nat) ∉ (([1], false) : List Nat × Bool).1)

/-- Counterexample to C3 as stated: on `gClosCycle` (function 0 whose
closure 1 is mutually recursive with closure 2, nothing calling back into
0), the run emits the single component `([0, 1, 2], false)` — flag
`false` — although its members 1 and 2 form a cycle (`2 ∈ succ 1` and
`1 ∈ succ 2`).  So the flag is not "true iff the component contains a
cycle among its members". -/
theorem C3_counterexample :
    runOut gClosCycle 4 [0] = some [([0, 1, 2], false)] ∧
    2 ∈ gClosCycle.succ 1 ∧ 1 ∈ gClosCycle.succ 2 ∧
    1 ∈ ([0, 1, 2] : List Nat) ∧ 2 ∈ ([0, 1, 2] : List Nat) :=
  ⟨by decide, by decide, by decide, by decide, by decide⟩

/-- C3 (amended): the flag equals `min == id` for the non-closure function
that closes the component — the component's head — and that equality holds
iff the DFS found a path from the head back to the head through the
component's members.  A cycle among members that avoids the head (e.g.
between two closures, as in `gClosCycle`) does not force the flag. -/
theorem C3_flag_iff_head_cycle {g : Graph} {fuel : Nat} {roots : List Nat}
    {v' : Visitor} (hNo : NoOv g) (hWF : WF g)
    (hroots : ∀ x ∈ roots, x < g.n)
    (hEq : visitBottomUp g fuel roots = some v')
    {c : List Nat × Bool} (hc : c ∈ v'.out) :
    c.2 = true ↔ CPath g (fun m => m ∈ c.1) c.1.headI c.1.headI := by
  obtain ⟨hI2, -, -, -⟩ := finalState hNo hWF hroots hEq
  exact hI2.out_rec c hc

/-- Witness for C3 on the closure-with-back-edge graph: component
`([0, 1], true)` has flag `true`, and indeed its head 0 lies on a cycle
through member 1. -/
theorem C3_witness :
    ∃ u, visitBottomUp gClosBack 3 [0] = some u ∧
      CPath gClosBack (fun m => m ∈ ([0, 1] : List Nat)) 0 0 := by
  have hs : (visitBottomUp gClosBack 3 [0]).isSome := by decide
  obtain ⟨v', hv⟩ : ∃ u, visitBottomUp gClosBack 3 [0] = some u :=
    ⟨_, (Option.some_get hs).symm⟩
  have hout : v'.out = [([0, 1], true)] := by
    have h2 : runOut gClosBack 3 [0] = some v'.out := by
      unfold runOut
      rw [hv]
      rfl
    have h3 : runOut gClosBack 3 [0] = some [([0, 1], true)] := by decide
    exact Option.some.inj (h2.symm.trans h3)
  have hc : (([0, 1], true) : List Nat × Bool) ∈ v'.out := by
    rw [hout]
    exact List.mem_singleton.mpr rfl
  exact ⟨v', hv,
    (C3_flag_iff_head_cycle noOv_gClosBack wf_gClosBack (by decide) hv hc).mp
      rfl⟩

/-- Counterexample to C5 as stated: on `gClosNoBack` (function 0 with
closure 1 that never calls back), the emitted component `[0, 1]` is not a
set of mutually reachable nodes: node 0 is not reachable from node 1. -/
theorem C5_counterexample :
    runOut gClosNoBack 3 [0] = some [([0, 1], false)] ∧
    ¬ Reach gClosNoBack 1 0 := by
  refine ⟨by decide, ?_⟩
  have h1 : ∀ z, Reach gClosNoBack 1 z → z = 1 := by
    intro z h
    induction h with
    | refl => rfl
    | tail _ he ih =>
        subst ih
        simp [gClosNoBack] at he
  intro h
  exact absurd (h1 0 h) (by decide)

/-- C5 (amended): on closure-free graphs — where the hidden-closure
adaptation is inert — every emitted component is an exact strongly
connected component: its members are mutually reachable, and anything
mutually reachable with a member is itself a member. -/
theorem C5_closure_free_exact_scc {g : Graph} {fuel : Nat}
    {roots : List Nat} {v' : Visitor} (hNo : NoOv g) (hWF : WF g)
    (hcf : ∀ m, g.closure m = false) (hroots : ∀ x ∈ roots, x < g.n)
    (hEq : visitBottomUp g fuel roots = some v')
    {c : List Nat × Bool} (hc : c ∈ v'.out) :
    (∀ a ∈ c.1, ∀ b ∈ c.1, Reach g a b) ∧
    (∀ a ∈ c.1, ∀ z, Reach g a z → Reach g z a → z ∈ c.1) := by
  obtain ⟨hI2, -, hdone, -⟩ := finalState hNo hWF hroots hEq
  constructor
  · intro a ha b hb
    rcases hI2.out_scc hcf c hc a ha b hb with rfl | hp
    · exact Reach.refl a
    · exact hp.to_reach
  · intro a ha z h1 h2
    exact comp_maximal hI2 hdone hc ha h1 h2

/-- Witness for C5 on the mutual-recursion graph: in the emitted component
`([0, 1], true)`, member 1 is reachable from member 0, and node 1 — being
mutually reachable with member 0 — is a member. -/
theorem C5_witness : Reach gMutual 0 1 ∧ (1 : Nat) ∈ ([0, 1] : List Nat) := by
  have hs : (visitBottomUp gMutual 3 [0, 1]).isSome := by decide
  obtain ⟨v', hv⟩ : ∃ u, visitBottomUp gMutual 3 [0, 1] = some u :=
    ⟨_, (Option.some_get hs).symm⟩
  have hout : v'.out = [([0, 1], true)] := by
    have h2 : runOut gMutual 3 [0, 1] = some v'.out := by
      unfold runOut
      rw [hv]
      rfl
    have h3 : runOut gMutual 3 [0, 1] = some [([0, 1], true)] := by decide
    exact Option.some.inj (h2.symm.trans h3)
  have hc : (([0, 1], true) : List Nat × Bool) ∈ v'.out := by
    rw [hout]
    exact List.mem_singleton.mpr rfl
  have h := C5_closure_free_exact_scc noOv_gMutual wf_gMutual (fun _ => rfl)
    (by decide) hv hc
  exact ⟨h.1 0 (by decide) 1 (by decide),
    h.2 0 (by decide) 1 (Reach.tail (Reach.refl 0) (by decide))
      (Reach.tail (Reach.refl 1) (by decide))⟩

/-- Counterexample to C6 as stated: the `uint32` counter wraps, and the
id issued to the 2147483648-th freshly visited function is exactly
`^uint32(0)` — the sentinel — so the sentinel is not strictly greater
than every value the counter assigns "for any number of visited
functions". -/
theorem C6_counterexample :
    idOfVisit 2147483647 = sentinel ∧
    ¬ idOfVisit 2147483647 < sentinel := by
  rw [idOfVisit_closed]
  constructor <;> decide

/-- C6 (amended): as long as the counter does not exhaust its 32-bit
range — `2 * k + 2 < 2^32`, i.e. fewer than `2^31 - 1` completed fresh
visits, which `NoOv` guarantees for every graph the model runs on — both
ordinals issued to the `(k+1)`-st freshly visited function are strictly
below the sentinel (and the id is nonzero, so it is also distinct from
the unvisited marker). -/
theorem C6_counter_below_sentinel (k : Nat) (h : 2 * k + 2 < W) :
    idOfVisit k < sentinel ∧ minSeedOfVisit k < sentinel ∧
    0 < idOfVisit k := by
  rw [idOfVisit_closed, minSeedOfVisit_closed]
  have hW : W = 4294967296 := rfl
  have hs : sentinel = 4294967295 := rfl
  rw [hW] at h ⊢
  rw [hs]
  omega

/-- Witness for C6 at `k = 0`: the first visit's ordinals 1 and 2 are
below the sentinel. -/
theorem C6_witness :
    2 * 0 + 2 < W ∧
    (idOfVisit 0 < sentinel ∧ minSeedOfVisit 0 < sentinel ∧
      0 < idOfVisit 0) :=
  ⟨by decide, C6_counter_below_sentinel 0 (by decide)⟩

/-- C7: `visit` of an already-visited node returns its recorded ordinal
immediately, without re-descending (lines 69-72), and consequently the
traversal terminates on every finite graph — arbitrary cycles included —
with fuel `g.n + 1`, one unit per distinct freshly visited function plus
one. -/
theorem C7_visit_once_and_terminates {g : Graph} (hNo : NoOv g)
    (hWF : WF g) :
    (∀ fuel v n, Visited v n →
      visit g (fuel + 1) v n = some (v.nodeID n, v)) ∧
    (∀ roots, (∀ x ∈ roots, x < g.n) →
      (visitBottomUp g (g.n + 1) roots).isSome) := by
  constructor
  · intro fuel v n hv
    exact visit_visited (Nat.pos_of_ne_zero hv)
  · intro roots hr
    exact visitBottomUp_total hNo hWF hr

/-- Witness for C7 on the self-loop graph: a visited node's `visit` is the
identity memo hit, and the full run terminates with fuel `n + 1`. -/
theorem C7_witness :
    visit gSelf 1 vAll1 0 = some (1, vAll1) ∧
    (visitBottomUp gSelf (gSelf.n + 1) [0]).isSome := by
  have h := C7_visit_once_and_terminates noOv_gSelf wf_gSelf
  exact ⟨h.1 0 vAll1 0 (by decide : vAll1.nodeID 0 ≠ 0), h.2 [0] (by decide)⟩

/-- C9: a top-level `visit` from the root loop — empty stack, fresh
non-closure `n`, whose id will be `id = v.visitgen + 1` — returns a final
`min` equal to `id` or `id + 1`, always closes a component (the last one
emitted during the call, headed by `n`, with `recursive = (min == id)`),
and leaves the stack empty again; moreover the stack is empty whenever
`visitBottomUp` returns. -/
theorem C9_root_visit_closes_with_empty_stack {g : Graph} (hNo : NoOv g)
    (hWF : WF g) :
    (∀ fuel v n r v', Inv2 g [] v → v.stack = [] → n < g.n →
      g.closure n = false → ¬ Visited v n →
      visit g fuel v n = some (r, v') →
      (r = v.visitgen + 1 ∨ r = v.visitgen + 2) ∧ IsDone v' n ∧
      v'.stack = [] ∧
      ∃ d tl, v'.out =
        v.out ++ d ++ [(n :: tl, decide (r = v.visitgen + 1))]) ∧
    (∀ fuel roots v', (∀ x ∈ roots, x < g.n) →
      visitBottomUp g fuel roots = some v' → v'.stack = []) := by
  constructor
  · intro fuel v n r v' hI2 hst hn hcl hfresh hEq
    obtain ⟨hr, hdone, hstk, d, tl, hout, -⟩ :=
      rootStep hNo hWF hI2 hst hn hcl hfresh hEq
    exact ⟨hr, hdone, hstk, d, tl, hout⟩
  · intro fuel roots v' hroots hEq
    exact (finalState hNo hWF hroots hEq).2.1

/-- Witness for C9 on the self-loop graph: the top-level visit of root 0
from the fresh state closes its component and leaves the stack empty. -/
theorem C9_witness :
    ∃ r v', visit gSelf 2 initV 0 = some (r, v') ∧
      (r = initV.visitgen + 1 ∨ r = initV.visitgen + 2) ∧ IsDone v' 0 ∧
      v'.stack = [] ∧
      ∃ d tl, v'.out =
        initV.out ++ d ++ [(0 :: tl, decide (r = initV.visitgen + 1))] := by
  have hs : (visit gSelf 2 initV 0).isSome := by decide
  obtain ⟨p, hp⟩ : ∃ p, visit gSelf 2 initV 0 = some p :=
    ⟨_, (Option.some_get hs).symm⟩
  obtain ⟨r, v'⟩ := p
  exact ⟨r, v', hp,
    (C9_root_visit_closes_with_empty_stack noOv_gSelf wf_gSelf).1 2 initV 0
      r v' (Inv2_init gSelf) rfl (by decide) rfl (fun h => h rfl) hp⟩

/-- C10: every member list passed to `analyze` is nonempty, repeats no
node, and its first element is a non-closure function — in particular no
emitted component consists solely of closures; and whenever a fresh visit
of `n` finalizes `n` (closes a component), the last component emitted
during that visit is headed by the closing node `n`, followed by the
nodes absorbed during the visit in stack-push order. -/
theorem C10_component_head {g : Graph} {fuel : Nat} {roots : List Nat}
    {v' : Visitor} (hNo : NoOv g) (hWF : WF g)
    (hroots : ∀ x ∈ roots, x < g.n)
    (hEq : visitBottomUp g fuel roots = some v') :
    (∀ c ∈ v'.out, c.1 ≠ [] ∧ g.closure c.1.headI = false ∧ c.1.Nodup) ∧
    (∀ fuelv A v n r v2, Inv2 g A v → n < g.n → g.closure n = false →
      ¬ Visited v n →
      visit g fuelv v n = some (r, v2) → IsDone v2 n →
      ∃ d tl, v2.out = v.out ++ d ++
          [(n :: tl, decide (r = v.visitgen + 1))] ∧
        (∀ x ∈ tl, ¬ Visited v x ∧ IsDone v2 x)) := by
  obtain ⟨hI2, -, -, -⟩ := finalState hNo hWF hroots hEq
  constructor
  · intro c hc
    obtain ⟨o1, o2, hdec⟩ := List.append_of_mem hc
    refine ⟨(hI2.out_head c hc).1, (hI2.out_head c hc).2, ?_⟩
    rw [List.nodup_iff_count_le_one]
    intro a
    have hcnt := hI2.out_count a
    rw [hdec, outFlat_append, outFlat_cons, List.count_append,
      List.count_append] at hcnt
    split at hcnt <;> omega
  · intro fuelv A v n r v2 hI2v hn hncl hfresh hEqv hdone
    obtain ⟨-, -, -, hF⟩ := visitB hNo hWF fuelv A v n r v2 hI2v hn
      (fun h => absurd (hncl.symm.trans h) (by decide)) hEqv
    obtain ⟨-, -, -, d, tl, hout, htl⟩ := (hF hfresh).fate_done hdone
    exact ⟨d, tl, hout, htl⟩

/-- Witness for C10 on the closure-without-back-edge graph: the emitted
member list `[0, 1]` is nonempty, duplicate-free and headed by the
non-closure function 0, and the closing visit of 0 emits a component
headed by 0. -/
theorem C10_witness :
    ∃ u, visitBottomUp gClosNoBack 3 [0] = some u ∧
      (([0, 1] : List Nat) ≠ [] ∧
        gClosNoBack.closure ([0, 1] : List Nat).headI = false ∧
        ([0, 1] : List Nat).Nodup) ∧
      ∃ r v2, visit gClosNoBack 3 initV 0 = some (r, v2) ∧
        ∃ d tl, v2.out = initV.out ++ d ++
          [(0 :: tl, decide (r = initV.visitgen + 1))] := by
  have hs : (visitBottomUp gClosNoBack 3 [0]).isSome := by decide
  obtain ⟨v', hv⟩ : ∃ u, visitBottomUp gClosNoBack 3 [0] = some u :=
    ⟨_, (Option.some_get hs).symm⟩
  have hout : v'.out = [([0, 1], false)] := by
    have h2 : runOut gClosNoBack 3 [0] = some v'.out := by
      unfold runOut
      rw [hv]
      rfl
    have h3 : runOut gClosNoBack 3 [0] = some [([0, 1], false)] := by decide
    exact Option.some.inj (h2.symm.trans h3)
  have h := C10_component_head noOv_gClosNoBack wf_gClosNoBack (by decide) hv
  have h1 := h.1 ([0, 1], false) (by rw [hout]; exact List.mem_singleton.mpr rfl)
  have hs2 : (visit gClosNoBack 3 initV 0).isSome := by decide
  obtain ⟨p, hp⟩ : ∃ p, visit gClosNoBack 3 initV 0 = some p :=
    ⟨_, (Option.some_get hs2).symm⟩
  obtain ⟨r, v2⟩ := p
  have hdn : IsDone v2 0 := by
    have h3 : (visit gClosNoBack 3 initV 0).map (fun p => p.2.nodeID 0) =
        some sentinel := by decide
    rw [hp] at h3
    exact Option.some.inj h3
  obtain ⟨d, tl, hout2, -⟩ :=
    h.2 3 [] initV 0 r v2 (Inv2_init gClosNoBack) (by decide) rfl
      (fun hh => hh rfl) hp hdn
  exact ⟨v', hv, h1, r, v2, hp, d, tl, hout2⟩

/-- One direction of run-to-run component transfer on closure-free
graphs: every component of the first run reappears in the second run with
the same member set and the same flag.  The two runs may use different
root orders (same root set) and different edge enumeration orders (same
edge sets). -/
theorem partition_transfer {g g2 : Graph} {fuel1 fuel2 : Nat}
    {roots1 roots2 : List Nat} {v1 v2 : Visitor}
    (hNo : NoOv g) (hWF : WF g) (hcf : ∀ m, g.closure m = false)
    (hNo2 : NoOv g2) (hWF2 : WF g2)
    (hsucc : ∀ i j, j ∈ g2.succ i ↔ j ∈ g.succ i)
    (hcl : ∀ i, g2.closure i = g.closure i)
    (hrs : ∀ x, x ∈ roots1 ↔ x ∈ roots2)
    (hroots : ∀ x ∈ roots1, x < g.n) (hroots2 : ∀ x ∈ roots2, x < g2.n)
    (hEq1 : visitBottomUp g fuel1 roots1 = some v1)
    (hEq2 : visitBottomUp g2 fuel2 roots2 = some v2) :
    ∀ c1 ∈ v1.out, ∃ c2 ∈ v2.out,
      (∀ x, x ∈ c1.1 ↔ x ∈ c2.1) ∧ c1.2 = c2.2 := by
  have hsucc' : ∀ i j, j ∈ g.succ i ↔ j ∈ g2.succ i :=
    fun i j => (hsucc i j).symm
  have hcf2 : ∀ m, g2.closure m = false := fun m => (hcl m).trans (hcf m)
  obtain ⟨hI2a, -, hdone1, -⟩ := finalState hNo hWF hroots hEq1
  obtain ⟨hI2b, -, hdone2, hrr2⟩ := finalState hNo2 hWF2 hroots2 hEq2
  obtain ⟨-, -, -, hRR⟩ :=
    runRootsA hNo hWF roots1 fuel1 initV v1 (InvT_init g) hroots hEq1
  intro c1 hc1
  obtain ⟨hne1, -⟩ := hI2a.out_head c1 hc1
  have ha : c1.1.headI ∈ c1.1 := headI_mem hne1
  have hmut1 : ∀ x ∈ c1.1, ∀ y ∈ c1.1, Reach g x y := by
    intro x hx y hy
    rcases hI2a.out_scc hcf c1 hc1 x hx y hy with rfl | hp
    · exact Reach.refl x
    · exact hp.to_reach
  -- the head is reachable from a usable root of run 1, hence finalized in
  -- run 2 as well
  have hav : Visited v1 c1.1.headI := by
    unfold Visited
    rw [mem_out_done hI2a hc1 ha]
    exact sentinel_ne_zero
  obtain ⟨x, hx, hxcl, hxr⟩ := hRR c1.1.headI (fun h => h rfl) hav
  have hda : IsDone v2 c1.1.headI :=
    hrr2 c1.1.headI
      ⟨x, (hrs x).mp hx, (hcl x).trans hxcl, Reach_congr hsucc hxr⟩
  have hmem2 : c1.1.headI ∈ outFlat v2.out := by
    have h := hI2b.out_count c1.1.headI
    have hda' : v2.nodeID c1.1.headI = sentinel := hda
    rw [if_pos hda'] at h
    exact List.count_pos_iff.mp (by omega)
  obtain ⟨c2, hc2, hac2⟩ := mem_outFlat.mp hmem2
  have hmut2 : ∀ x ∈ c2.1, ∀ y ∈ c2.1, Reach g2 x y := by
    intro x hx y hy
    rcases hI2b.out_scc hcf2 c2 hc2 x hx y hy with rfl | hp
    · exact Reach.refl x
    · exact hp.to_reach
  have hiff : ∀ x, x ∈ c1.1 ↔ x ∈ c2.1 := by
    intro x
    constructor
    · intro hx1
      exact comp_maximal hI2b hdone2 hc2 hac2
        (Reach_congr hsucc (hmut1 c1.1.headI ha x hx1))
        (Reach_congr hsucc (hmut1 x hx1 c1.1.headI ha))
    · intro hx2
      exact comp_maximal hI2a hdone1 hc1 ha
        (Reach_congr hsucc' (hmut2 c1.1.headI hac2 x hx2))
        (Reach_congr hsucc' (hmut2 x hx2 c1.1.headI hac2))
  refine ⟨c2, hc2, hiff, ?_⟩
  have hrec1 := hI2a.out_rec c1 hc1
  have hrec2 := hI2b.out_rec c2 hc2
  have hb : c2.1.headI ∈ c2.1 := headI_mem (hI2b.out_head c2 hc2).1
  by_cases hsing : ∀ x ∈ c1.1, x = c1.1.headI
  · -- the member set is the singleton of the head
    have hba : c2.1.headI = c1.1.headI := hsing _ ((hiff _).mpr hb)
    have hiffb : c1.2 = true ↔ c2.2 = true := by
      rw [hrec1, hrec2, hba]
      exact ⟨CPath_congr hsucc (fun m => (hiff m).mp),
        CPath_congr hsucc' (fun m => (hiff m).mpr)⟩
    cases hb1 : c1.2 <;> cases hb2 : c2.2 <;> simp_all
  · -- at least two members: both components carry a head cycle
    push_neg at hsing
    obtain ⟨x0, hx0, hx0a⟩ := hsing
    have hcyc1 : CPath g (fun m => m ∈ c1.1) c1.1.headI c1.1.headI := by
      rcases hI2a.out_scc hcf c1 hc1 c1.1.headI ha x0 hx0 with h | h1
      · exact absurd h.symm hx0a
      · rcases hI2a.out_scc hcf c1 hc1 x0 hx0 c1.1.headI ha with h | h2
        · exact absurd h hx0a
        · exact h1.append hx0 h2
    have hpart : ∃ y ∈ c2.1, y ≠ c2.1.headI := by
      by_cases hba : c2.1.headI = c1.1.headI
      · exact ⟨x0, (hiff x0).mp hx0, by rw [hba]; exact hx0a⟩
      · exact ⟨c1.1.headI, (hiff _).mp ha, fun h => hba h.symm⟩
    obtain ⟨y, hy, hyb⟩ := hpart
    have hcyc2 : CPath g2 (fun m => m ∈ c2.1) c2.1.headI c2.1.headI := by
      rcases hI2b.out_scc hcf2 c2 hc2 c2.1.headI hb y hy with h | h1
      · exact absurd h.symm hyb
      · rcases hI2b.out_scc hcf2 c2 hc2 y hy c2.1.headI hb with h | h2
        · exact absurd h hyb
        · exact h1.append hy h2
    rw [hrec1.mpr hcyc1, hrec2.mpr hcyc2]

/-- Counterexample to C8 as stated: on `gShared` (hidden closure 2
referenced by both functions 0 and 1) the root orders `[0, 1]` and
`[1, 0]` produce different partitions: the first run groups 0 with 2, the
second groups 1 with 2, so no component of the second run has member set
containing both 0 and 2. -/
theorem C8_counterexample :
    runOut gShared 4 [0, 1] = some [([0, 2], false), ([1], false)] ∧
    runOut gShared 4 [1, 0] = some [([1, 2], false), ([0], false)] ∧
    (0 ∈ ([0, 2] : List Nat) ∧ 2 ∈ ([0, 2] : List Nat)) ∧
    ¬ (0 ∈ ([1, 2] : List Nat) ∧ 2 ∈ ([1, 2] : List Nat)) ∧
    ¬ (0 ∈ ([0] : List Nat) ∧ 2 ∈ ([0] : List Nat)) :=
  ⟨by decide, by decide, by decide, by decide, by decide⟩

/-- C8 (amended): on closure-free graphs — the hidden-closure adaptation
is exactly what breaks run-to-run stability — two fresh runs over the
same node set, the same edge sets (in any enumeration order) and the same
root set (in any order) produce the same partition into member sets with
the same recursive flag per component.  The mutual refinement is stated in
both directions. -/
theorem C8_closure_free_same_partition {g g2 : Graph} {fuel1 fuel2 : Nat}
    {roots1 roots2 : List Nat} {v1 v2 : Visitor}
    (hNo : NoOv g) (hWF : WF g) (hcf : ∀ m, g.closure m = false)
    (hNo2 : NoOv g2) (hWF2 : WF g2) (hn : g2.n = g.n)
    (hsucc : ∀ i j, j ∈ g2.succ i ↔ j ∈ g.succ i)
    (hcl : ∀ i, g2.closure i = g.closure i)
    (hrs : ∀ x, x ∈ roots1 ↔ x ∈ roots2)
    (hroots : ∀ x ∈ roots1, x < g.n)
    (hEq1 : visitBottomUp g fuel1 roots1 = some v1)
    (hEq2 : visitBottomUp g2 fuel2 roots2 = some v2) :
    (∀ c1 ∈ v1.out, ∃ c2 ∈ v2.out,
      (∀ x, x ∈ c1.1 ↔ x ∈ c2.1) ∧ c1.2 = c2.2) ∧
    (∀ c2 ∈ v2.out, ∃ c1 ∈ v1.out,
      (∀ x, x ∈ c2.1 ↔ x ∈ c1.1) ∧ c2.2 = c1.2) := by
  have hroots2 : ∀ x ∈ roots2, x < g2.n := by
    intro x hx
    rw [hn]
    exact hroots x ((hrs x).mpr hx)
  constructor
  · exact partition_transfer hNo hWF hcf hNo2 hWF2 hsucc hcl hrs hroots
      hroots2 hEq1 hEq2
  · exact partition_transfer hNo2 hWF2 (fun m => (hcl m).trans (hcf m)) hNo
      hWF (fun i j => (hsucc i j).symm) (fun i => (hcl i).symm)
      (fun x => (hrs x).symm) hroots2 hroots hEq2 hEq1

/-- Witness for C8: two runs over the mutual-recursion graph with the
root orders `[0, 1]` and `[1, 0]`; the component `([0, 1], true)` of the
first run reappears in the second with the same member set and flag. -/
theorem C8_witness :
    ∃ u1 u2, visitBottomUp gMutual 3 [0, 1] = some u1 ∧
      visitBottomUp gMutual 3 [1, 0] = some u2 ∧
      ∃ c2 ∈ u2.out, ((0 : Nat) ∈ c2.1 ∧ (1 : Nat) ∈ c2.1) ∧
        true = c2.2 := by
  have hs1 : (visitBottomUp gMutual 3 [0, 1]).isSome := by decide
  obtain ⟨u1, hv1⟩ : ∃ u, visitBottomUp gMutual 3 [0, 1] = some u :=
    ⟨_, (Option.some_get hs1).symm⟩
  have hs2 : (visitBottomUp gMutual 3 [1, 0]).isSome := by decide
  obtain ⟨u2, hv2⟩ : ∃ u, visitBottomUp gMutual 3 [1, 0] = some u :=
    ⟨_, (Option.some_get hs2).symm⟩
  have hout1 : u1.out = [([0, 1], true)] := by
    have h2 : runOut gMutual 3 [0, 1] = some u1.out := by
      unfold runOut
      rw [hv1]
      rfl
    have h3 : runOut gMutual 3 [0, 1] = some [([0, 1], true)] := by decide
    exact Option.some.inj (h2.symm.trans h3)
  have hrs : ∀ x : Nat, x ∈ ([0, 1] : List Nat) ↔ x ∈ ([1, 0] : List Nat) := by
    intro x
    simp only [List.mem_cons, List.not_mem_nil, or_false]
    tauto
  have h := C8_closure_free_same_partition noOv_gMutual wf_gMutual
    (fun _ => rfl) noOv_gMutual wf_gMutual rfl (fun _ _ => Iff.rfl)
    (fun _ => rfl) hrs (by decide) hv1 hv2
  obtain ⟨c2, hc2, hiff, hfl⟩ :=
    h.1 ([0, 1], true) (by rw [hout1]; exact List.mem_singleton.mpr rfl)
  exact ⟨u1, u2, hv1, hv2, c2, hc2,
    ⟨(hiff 0).mp (by decide), (hiff 1).mp (by decide)⟩, hfl⟩

/-- On `gClosBack` every closure (only node 1) has a unique referencing
function (node 0). -/
theorem sp_gClosBack : SP gClosBack := by
  intro c p q hc hp hq
  have hc1 : c = 1 := of_decide_eq_true hc
  subst hc1
  have honly : ∀ x, 1 ∈ gClosBack.succ x → x = 0 := by
    intro x hx
    by_cases h0 : x = 0
    · exact h0
    · by_cases h1 : x = 1
      · subst h1
        simp [gClosBack] at hx
      · simp [gClosBack, h0, h1] at hx
  rw [honly p hp, honly q hq]

/-- C4: a hidden closure never closes a component — the head of every
emitted component (the node whose component-root test fired, line 122) is
a non-closure function — and, under the single-parent discipline `SP`
that makes "lexically enclosing" well defined, every closure is emitted
in the same component as its nearest enclosing non-closure function,
transitively through closures nested in closures (`Encl`). -/
theorem C4_closure_never_closes_grouped {g : Graph} {fuel : Nat}
    {roots : List Nat} {v' : Visitor} (hNo : NoOv g) (hWF : WF g)
    (hsp : SP g) (hroots : ∀ x ∈ roots, x < g.n)
    (hEq : visitBottomUp g fuel roots = some v') :
    (∀ c ∈ v'.out, g.closure c.1.headI = false) ∧
    (∀ K ∈ v'.out, ∀ c ∈ K.1, ∀ f, Encl g c f → f ∈ K.1) := by
  obtain ⟨hI2, -, -, -⟩ := finalState hNo hWF hroots hEq
  refine ⟨fun c hc => (hI2.out_head c hc).2, ?_⟩
  intro K hK c hc f hencl
  have key : ∀ c f, Encl g c f → c ∈ K.1 → f ∈ K.1 := by
    intro c f he
    induction he with
    | direct hc2 _ hedge =>
        intro hmem
        exact hI2.out_parent hsp K hK _ hmem hc2 _ hedge
    | step hc2 _ hedge _ ih =>
        intro hmem
        exact ih (hI2.out_parent hsp K hK _ hmem hc2 _ hedge)
  exact key c f hencl hc

/-- Witness for C4 on the closure-with-back-edge graph: the emitted
component `([0, 1], true)` is headed by the non-closure 0, and closure 1 —
whose nearest enclosing non-closure function is 0 — is grouped with 0. -/
theorem C4_witness :
    gClosBack.closure 0 = false ∧ (0 : Nat) ∈ ([0, 1] : List Nat) := by
  have hs : (visitBottomUp gClosBack 3 [0]).isSome := by decide
  obtain ⟨v', hv⟩ : ∃ u, visitBottomUp gClosBack 3 [0] = some u :=
    ⟨_, (Option.some_get hs).symm⟩
  have hout : v'.out = [([0, 1], true)] := by
    have h2 : runOut gClosBack 3 [0] = some v'.out := by
      unfold runOut
      rw [hv]
      rfl
    have h3 : runOut gClosBack 3 [0] = some [([0, 1], true)] := by decide
    exact Option.some.inj (h2.symm.trans h3)
  have hc : (([0, 1], true) : List Nat × Bool) ∈ v'.out := by
    rw [hout]
    exact List.mem_singleton.mpr rfl
  have h := C4_closure_never_closes_grouped noOv_gClosBack wf_gClosBack
    sp_gClosBack (by decide) hv
  exact ⟨h.1 ([0, 1], true) hc,
    h.2 ([0, 1], true) hc 1 (by decide) 0
      (Encl.direct rfl rfl (by decide))⟩

end SCCgo
